import Mathlib

/-!
The command-line resolution and dispatch of senpai (`commands.go`).

A shallow embedding of `commands.go` and a verification of its dispatcher.

Modelling conventions.

* A Go `string` is modelled as the list of its Unicode code points (`Str`).
  The input line is valid UTF-8, and every byte the dispatcher tests
  (`'/'`, `' '`) is ASCII; an ASCII byte never occurs inside a multi-byte
  UTF-8 sequence, so indexing, slicing, trimming, splitting and prefix tests
  on those bytes agree with the same operations on code points.
* The functions of Go's `strings` package are modelled after their Go
  implementation, specialised to the one-byte separator the source passes.
* The Unicode case table behind `unicode.ToUpper` is a parameter.
* Go's `int` fields are `Int`.
* The registry `commands` is a Go map. Its entries are listed in source order
  and every `range` loop over it takes the enumeration order as an argument.
* The session and the window are external collaborators. A call that changes
  them is appended to the application's call log; what they answer to a
  query is read from an environment `Env`.
* A handler either returns an `error` leaving the application in some state,
  or panics with an index out of range, or panics with a nil pointer
  dereference: a method of the session called while `app.s` is `nil`.
-/

namespace Senpai

/-- A Go string, as the list of its code points. -/
abbrev Str := List Char

/-! ## The `strings` and `unicode` library functions that the source calls -/

/-- Go `unicode.ToUpper`: ASCII letters are shifted by `'a' - 'A'`, other ASCII
runes are unchanged, runes above `MaxASCII` go through the case table. -/
def unicodeToUpper (table : Char → Char) (r : Char) : Char :=
  if r.toNat ≤ 0x7F then
    if 'a'.toNat ≤ r.toNat ∧ r.toNat ≤ 'z'.toNat then Char.ofNat (r.toNat - ('a'.toNat - 'A'.toNat)) else r
  else table r

/-- Go `strings.ToUpper`: every rune mapped by `unicode.ToUpper` (the ASCII
fast path of the Go implementation computes the same string). -/
def ToUpper (table : Char → Char) (s : Str) : Str :=
  s.map (unicodeToUpper table)

/-- Go `strings.IndexByte(s, c)`: index of the first `c` in `s`, `-1` if absent. -/
def IndexByte : Str → Char → Int
  | [], _ => -1
  | x :: xs, c =>
    if x = c then 0
    else
      let i := IndexByte xs c
      if i < 0 then -1 else i + 1

/-- Go `strings.TrimLeft(s, " ")`: `s` without its leading spaces. -/
def TrimLeftSpace : Str → Str
  | [] => []
  | x :: xs => if x = ' ' then TrimLeftSpace xs else x :: xs

/-- Go `strings.HasPrefix(s, prefix)`:
`len(s) >= len(prefix) && s[:len(prefix)] == prefix`. -/
def HasPrefix (s pre : Str) : Bool :=
  decide (pre.length ≤ s.length) && decide (s.take pre.length = pre)

/-- The loop of Go's `strings.genSplit` for the separator `" "`: `k` is the
number of separators that may still be consumed. -/
def splitLoop : Nat → Str → List Str
  | 0, s => [s]
  | k + 1, s =>
    let m := IndexByte s ' '
    if m < 0 then [s]
    else s.take m.toNat :: splitLoop k (s.drop (m.toNat + 1))

/-- Go `strings.Count(s, " ")`. -/
def CountSpace (s : Str) : Nat := s.count ' '

/-- Go `strings.SplitN(s, " ", n)`: `nil` for `n == 0`, all fields for `n < 0`,
otherwise at most `n` fields of which the last is the unsplit remainder. The
cap `len(s) + 1` of the Go implementation only bounds an allocation: a string
never has more fields than it has characters plus one, in bytes or code points. -/
def SplitN (s : Str) (n : Int) : List Str :=
  if n = 0 then []
  else
    let n1 : Int := if n < 0 then (CountSpace s : Int) + 1 else n
    let n2 : Int := if n1 > (s.length : Int) + 1 then (s.length : Int) + 1 else n1
    splitLoop (n2 - 1).toNat s

/-- Go `strings.Join(a, " ")`. -/
def JoinSpace : List Str → Str
  | [] => []
  | [a] => a
  | a :: b :: rest => a ++ ' ' :: JoinSpace (b :: rest)

/-! ## `parseCommand` -/

/-- Source `parseCommand` (lines 329-348). The slice bounds `1 ≤ i ≤ len(s)`
hold on this path because `s[0]` is `'/'`, so `s[1:i]` and `s[i:]` are
`take`/`drop`. -/
def parseCommand (table : Char → Char) (s : Str) : Str × Str :=
  if s = [] then ([], [])
  else if s.head? ≠ some '/' then ([], s)
  else
    let i0 := IndexByte s ' '
    let i : Int := if i0 < 0 then (s.length : Int) else i0
    (ToUpper table ((s.take i.toNat).drop 1), TrimLeftSpace (s.drop i.toNat))

/-! ## The registry -/

/-- The functions stored in the `Handle` field of a `command`, by name. -/
inductive Handler
  | commandDo | commandDoHelp | commandDoJoin | commandDoMe | commandDoMsg
  | commandDoNames | commandDoPart | commandDoQuit | commandDoQuote | commandDoR
  | commandDoTopic | commandDoBuffer
  deriving DecidableEq, Repr

/-- Source `type command struct`. A field that a composite literal of `init`
leaves out has Go's zero value (`false`, `0`, `""`). -/
structure command where
  AllowHome : Bool := false
  MinArgs : Int := 0
  MaxArgs : Int := 0
  Usage : Str := []
  Desc : Str := []
  Handle : Handler
  deriving DecidableEq

/-- Source `commands`, as `init` builds it (lines 25-112), entries in source order. -/
def commands : List (Str × command) :=
  [ ("".toList, { MinArgs := 1, MaxArgs := 1, Handle := .commandDo }),
    ("HELP".toList,
      { AllowHome := true, MaxArgs := 1, Usage := "[command]".toList,
        Desc := "show the list of commands, or how to use the given one".toList,
        Handle := .commandDoHelp }),
    ("JOIN".toList,
      { AllowHome := true, MinArgs := 1, MaxArgs := 2, Usage := "<channels> [keys]".toList,
        Desc := "join a channel".toList, Handle := .commandDoJoin }),
    ("ME".toList,
      { AllowHome := true, MinArgs := 1, MaxArgs := 1, Usage := "<message>".toList,
        Desc := "send an action (reply to last query if sent from home)".toList,
        Handle := .commandDoMe }),
    ("MSG".toList,
      { AllowHome := true, MinArgs := 2, MaxArgs := 2, Usage := "<target> <message>".toList,
        Desc := "send a message to the given target".toList, Handle := .commandDoMsg }),
    ("NAMES".toList,
      { Desc := "show the member list of the current channel".toList,
        Handle := .commandDoNames }),
    ("PART".toList,
      { AllowHome := true, MaxArgs := 2, Usage := "[channel] [reason]".toList,
        Desc := "part a channel".toList, Handle := .commandDoPart }),
    ("QUIT".toList,
      { AllowHome := true, MaxArgs := 1, Usage := "[reason]".toList,
        Desc := "quit senpai".toList, Handle := .commandDoQuit }),
    ("QUOTE".toList,
      { AllowHome := true, MinArgs := 1, MaxArgs := 1, Usage := "<raw message>".toList,
        Desc := "send raw protocol data".toList, Handle := .commandDoQuote }),
    ("REPLY".toList,
      { AllowHome := true, MinArgs := 1, MaxArgs := 1, Usage := "<message>".toList,
        Desc := "reply to the last query".toList, Handle := .commandDoR }),
    ("TOPIC".toList,
      { MaxArgs := 1, Usage := "[topic]".toList,
        Desc := "show or set the topic of the current channel".toList,
        Handle := .commandDoTopic }),
    ("BUFFER".toList,
      { AllowHome := true, MinArgs := 1, MaxArgs := 1, Usage := "<name>".toList,
        Desc := "switch to the buffer containing a substring".toList,
        Handle := .commandDoBuffer }) ]

/-- The keys of the map `commands`. -/
def commandNames : List Str := commands.map Prod.fst

/-- Go map indexing `commands[key]`; `none` is the `nil` pointer of a missing key. -/
def lookupCommand (key : Str) : Option command :=
  (commands.find? (fun e => decide (e.1 = key))).map Prod.snd

/-- An order in which a `range` loop may enumerate the keys of `commands`:
every key exactly once. -/
def IsRangeOrder (order : List Str) : Prop := order.Perm commandNames

/-! ## Errors, collaborators and application state -/

/-- The errors built with `fmt.Errorf` in `commands.go`, one constructor per
format string, carrying the format arguments. -/
inductive Error
  /-- Format `ambiguous command %q (could mean %v or %v)`. -/
  | ambiguous (cmdName chosenCMDName key : Str)
  /-- Format `command %q doesn't exist`. -/
  | doesntExist (cmdName : Str)
  /-- Format `usage: %s %s`. -/
  | usage (cmdName usage : Str)
  /-- Format `command %q cannot be executed from home`. -/
  | notFromHome (cmdName : Str)
  /-- Text `cannot part home!` of `commandDoPart`. -/
  | cannotPartHome
  /-- Format `none of the buffers match %q` of `commandDoBuffer`. -/
  | noBufferMatch (name : Str)
  deriving DecidableEq, Repr

/-- Source `ui.Line`, with the fields the handlers set. -/
structure Line where
  At : Nat := 0
  Head : Str := []
  Body : Str := []
  deriving DecidableEq, Repr

/-- Source `irc.MessageEvent`, with the fields the handlers set (`User` is the
name of its prefix). -/
structure MessageEvent where
  User : Str
  Target : Str
  TargetIsChannel : Bool
  Command : Str
  Content : Str
  Time : Nat
  deriving DecidableEq, Repr

/-- Source `irc.Member`, with the fields `commandDoNames` reads. -/
structure Member where
  PowerLevel : Str
  Name : Str
  deriving DecidableEq, Repr

/-- The calls of the handlers that act on the session `app.s` or on the
window `app.win`. -/
inductive Call
  | PrivMsg (target content : Str)
  | Join (channels : Str)
  | Part (channel reason : Str)
  | Quit (reason : Str)
  | SendRaw (raw : Str)
  | SetTopic (buffer topic : Str)
  | AddLine (buffer : Str) (highlight : Bool) (line : Line)
  | Exit
  | JumpBuffer (sub : Str)
  deriving DecidableEq, Repr

/-- The part of source `App` that `commands.go` reads or changes: whether `app.s`
is `nil`, `app.lastQuery`, and the calls made so far on the session and window. -/
structure App where
  sIsNil : Bool
  lastQuery : Str
  calls : List Call
  deriving DecidableEq, Repr

/-- Records one call on a collaborator. -/
def App.call (app : App) (c : Call) : App :=
  { app with calls := app.calls ++ [c] }

/-- What lies outside `commands.go`: the constant `Home`, the Unicode case
table, the clock, and the answers of the session, the window and
`app.formatMessage` to the queries of the handlers. -/
structure Env where
  /-- The constant `Home`. -/
  Home : Str
  /-- The case table of `unicode.ToUpper` above ASCII. -/
  upperTable : Char → Char
  /-- Answer of `app.s.HasCapability`. -/
  HasCapability : Str → Bool
  /-- Answer of `app.s.Nick`. -/
  Nick : Str
  /-- Answer of `app.s.IsChannel`. -/
  IsChannel : Str → Bool
  /-- Answer of `app.s.Names`. -/
  Names : Str → List Member
  /-- Answer of `app.s.Topic`: the topic, the printed form of `who` unless it is
  `nil`, and the formatted local time `at`. -/
  Topic : Str → Str × Option Str × Str
  /-- Answer of `app.formatMessage`: the buffer and the line. -/
  formatMessage : MessageEvent → Str × Line
  /-- Answer of `time.Now`. -/
  Now : Nat
  /-- Answer of `app.win.CurrentBuffer`. -/
  CurrentBuffer : Str
  /-- Result of `app.win.JumpBuffer`. -/
  JumpBufferOk : Str → Bool
  /-- Rendering of a string by the verb `%q`. -/
  Quote : Str → Str
  /-- Orders in which the two `range commands` loops of `commandDoHelp`
  enumerate the keys. -/
  helpOrder : List Str

/-- What a handler or `handleInput` produces: `ok (app, err)` when it returns
`err` (`none` for `nil`) leaving the application as `app`; `indexPanic` when it
panics with an index out of range; `nilPanic` when it panics with a nil pointer
dereference. -/
inductive Result
  | ok (r : App × Option Error)
  | indexPanic
  | nilPanic
  deriving DecidableEq, Repr

/-! ## The handlers

A method of the session called while `app.s` is `nil` dereferences its nil
receiver and panics; `commandDoQuit` is the only handler that tests
`app.s != nil` before its call. The arguments of a call, `args[i]` among them,
are evaluated before the call, so an index out of range panics first. -/

/-- The local echo shared by `commandDo`, `commandDoMe`, `commandDoMsg` and
`commandDoR`, reached only with a session: unless the server echoes messages,
format the message and add the line to the buffer `app.formatMessage` names. -/
def echoMessage (E : Env) (app : App) (target content : Str) : App :=
  if !E.HasCapability "echo-message".toList then
    let r := E.formatMessage
      { User := E.Nick, Target := target, TargetIsChannel := true,
        Command := "PRIVMSG".toList, Content := content, Time := E.Now }
    app.call (.AddLine r.1 false r.2)
  else app

/-- Source `commandDo` (lines 114-128). -/
def commandDo (E : Env) (app : App) (buffer : Str) (args : List Str) : Result :=
  match args[0]? with
  | none => .indexPanic
  | some a0 =>
    if app.sIsNil then .nilPanic
    else
      let app := app.call (.PrivMsg buffer a0)
      .ok (echoMessage E app buffer a0, none)

/-- One pass of the first `range commands` loop of `commandDoHelp` (lines 138-153). -/
def helpListEntry (E : Env) (app : App) (cmdName : Str) (cmd : command) : App :=
  if cmd.Desc = [] then app
  else
    let app := app.call (.AddLine E.CurrentBuffer false
      { At := E.Now, Body := "  \x02".toList ++ cmdName ++ "\x02 ".toList ++ cmd.Usage })
    let app := app.call (.AddLine E.CurrentBuffer false
      { At := E.Now, Body := "    ".toList ++ cmd.Desc })
    app.call (.AddLine E.CurrentBuffer false { At := E.Now })

/-- Go `strings.Contains(s, sub)`. -/
def Contains (s sub : Str) : Bool :=
  s.tails.any (fun t => HasPrefix t sub)

/-- One pass of the second `range commands` loop of `commandDoHelp`
(lines 162-178); the flag is `found`. -/
def helpSearchEntry (E : Env) (search : Str) (st : App × Bool) (cmdName : Str) (cmd : command) :
    App × Bool :=
  if !Contains cmdName search then st
  else
    let app := st.1.call (.AddLine E.CurrentBuffer false
      { At := E.Now, Body := "\x02".toList ++ cmdName ++ "\x02 ".toList ++ cmd.Usage })
    let app := app.call (.AddLine E.CurrentBuffer false
      { At := E.Now, Body := "  ".toList ++ cmd.Desc })
    (app.call (.AddLine E.CurrentBuffer false { At := E.Now }), true)

/-- The entries a `range commands` loop visits, in the order `order`. -/
def rangeCommands (order : List Str) : List (Str × command) :=
  order.filterMap (fun k => (lookupCommand k).map (fun c => (k, c)))

/-- Source `commandDoHelp` (lines 130-187). It calls the window only. -/
def commandDoHelp (E : Env) (app : App) (_buffer : Str) (args : List Str) : Result :=
  if args.length = 0 then
    let app := app.call (.AddLine E.CurrentBuffer false
      { At := E.Now, Head := "--".toList, Body := "Available commands:".toList })
    .ok ((rangeCommands E.helpOrder).foldl (fun a e => helpListEntry E a e.1 e.2) app, none)
  else
    match args[0]? with
    | none => .indexPanic
    | some a0 =>
      let search := ToUpper E.upperTable a0
      let app := app.call (.AddLine E.CurrentBuffer false
        { At := E.Now, Head := "--".toList,
          Body := "Commands that match \"".toList ++ search ++ "\":".toList })
      let st := (rangeCommands E.helpOrder).foldl
        (fun a e => helpSearchEntry E search a e.1 e.2) (app, false)
      if !st.2 then
        .ok (st.1.call (.AddLine E.CurrentBuffer false
          { At := E.Now, Body := "  no command matches ".toList ++ E.Quote a0 }), none)
      else .ok (st.1, none)

/-- Source `commandDoJoin` (lines 189-192). -/
def commandDoJoin (_E : Env) (app : App) (_buffer : Str) (args : List Str) : Result :=
  match args[0]? with
  | none => .indexPanic
  | some a0 =>
    if app.sIsNil then .nilPanic
    else .ok (app.call (.Join a0), none)

/-- Source `commandDoMe` (lines 194-212). -/
def commandDoMe (E : Env) (app : App) (buffer : Str) (args : List Str) : Result :=
  let buffer := if buffer = E.Home then app.lastQuery else buffer
  match args[0]? with
  | none => .indexPanic
  | some a0 =>
    let content := "\x01ACTION ".toList ++ a0 ++ "\x01".toList
    if app.sIsNil then .nilPanic
    else
      let app := app.call (.PrivMsg buffer content)
      .ok (echoMessage E app buffer content, none)

/-- Source `commandDoMsg` (lines 214-230). -/
def commandDoMsg (E : Env) (app : App) (_buffer : Str) (args : List Str) : Result :=
  match args[0]? with
  | none => .indexPanic
  | some target =>
    match args[1]? with
    | none => .indexPanic
    | some content =>
      if app.sIsNil then .nilPanic
      else
        let app := app.call (.PrivMsg target content)
        .ok (echoMessage E app target content, none)

/-- One pass of the loop of `commandDoNames` (lines 235-243) on the string builder. -/
def namesEntry (sb : Str) (name : Member) : Str :=
  let sb := if name.PowerLevel ≠ [] then sb ++ "\x033".toList ++ name.PowerLevel ++ "\x0314".toList else sb
  sb ++ name.Name ++ [' ']

/-- Source `commandDoNames` (lines 232-251): `app.s.Names` is its first call.
The builder starts non-empty, so `body[:len(body)-1]` is in range and drops
the last character, a space. -/
def commandDoNames (E : Env) (app : App) (buffer : Str) (_args : List Str) : Result :=
  if app.sIsNil then .nilPanic
  else
    let body := (E.Names buffer).foldl namesEntry "\x0314Names: ".toList
    .ok (app.call (.AddLine buffer false
      { At := E.Now, Head := "--".toList, Body := body.dropLast }), none)

/-- The end of `commandDoPart` (lines 267-272), from `channel` and `reason`. -/
def partChannel (E : Env) (app : App) (channel reason : Str) : Result :=
  if channel ≠ E.Home then
    if app.sIsNil then .nilPanic
    else .ok (app.call (.Part channel reason), none)
  else .ok (app, some .cannotPartHome)

/-- Source `commandDoPart` (lines 253-273). -/
def commandDoPart (E : Env) (app : App) (buffer : Str) (args : List Str) : Result :=
  if 0 < args.length then
    match args[0]? with
    | none => .indexPanic
    | some a0 =>
      if app.sIsNil then .nilPanic
      else if E.IsChannel a0 then
        if 1 < args.length then
          match args[1]? with
          | none => .indexPanic
          | some a1 => partChannel E app a0 a1
        else partChannel E app a0 []
      else partChannel E app buffer a0
  else partChannel E app buffer []

/-- Source `commandDoQuit` (lines 275-285). -/
def commandDoQuit (_E : Env) (app : App) (_buffer : Str) (args : List Str) : Result :=
  let reason : Option Str :=
    if 0 < args.length then args[0]? else some []
  match reason with
  | none => .indexPanic
  | some reason =>
    let app := if app.sIsNil = false then app.call (.Quit reason) else app
    .ok (app.call .Exit, none)

/-- Source `commandDoQuote` (lines 287-290). -/
def commandDoQuote (_E : Env) (app : App) (_buffer : Str) (args : List Str) : Result :=
  match args[0]? with
  | none => .indexPanic
  | some a0 =>
    if app.sIsNil then .nilPanic
    else .ok (app.call (.SendRaw a0), none)

/-- Source `commandDoR` (lines 292-306). -/
def commandDoR (E : Env) (app : App) (_buffer : Str) (args : List Str) : Result :=
  match args[0]? with
  | none => .indexPanic
  | some a0 =>
    if app.sIsNil then .nilPanic
    else
      let app1 := app.call (.PrivMsg app.lastQuery a0)
      .ok (echoMessage E app1 app.lastQuery a0, none)

/-- Source `commandDoTopic` (lines 308-327). -/
def commandDoTopic (E : Env) (app : App) (buffer : Str) (args : List Str) : Result :=
  if args.length = 0 then
    if app.sIsNil then .nilPanic
    else
      let t := E.Topic buffer
      let body : Str :=
        match t.2.1 with
        | none => "\x0314Topic: ".toList ++ t.1
        | some who =>
          "\x0314Topic (by ".toList ++ who ++ ", ".toList ++ t.2.2 ++ "): ".toList ++ t.1
      .ok (app.call (.AddLine buffer false { At := E.Now, Head := "--".toList, Body := body }),
        none)
  else
    match args[0]? with
    | none => .indexPanic
    | some a0 =>
      if app.sIsNil then .nilPanic
      else .ok (app.call (.SetTopic buffer a0), none)

/-- Source `commandDoBuffer` (lines 389-396). It calls the window only. -/
def commandDoBuffer (E : Env) (app : App) (_buffer : Str) (args : List Str) : Result :=
  match args[0]? with
  | none => .indexPanic
  | some name =>
    let app := app.call (.JumpBuffer name)
    if !E.JumpBufferOk name then .ok (app, some (.noBufferMatch name))
    else .ok (app, none)

/-- The call `cmd.Handle(app, buffer, args)`. -/
def callHandle : Handler → Env → App → Str → List Str → Result
  | .commandDo => commandDo
  | .commandDoHelp => commandDoHelp
  | .commandDoJoin => commandDoJoin
  | .commandDoMe => commandDoMe
  | .commandDoMsg => commandDoMsg
  | .commandDoNames => commandDoNames
  | .commandDoPart => commandDoPart
  | .commandDoQuit => commandDoQuit
  | .commandDoQuote => commandDoQuote
  | .commandDoR => commandDoR
  | .commandDoTopic => commandDoTopic
  | .commandDoBuffer => commandDoBuffer

/-! ## `handleInput` -/

/-- The `for key := range commands` loop of `handleInput` (lines 355-367), run
over the keys in the order given, from the loop state `chosenCMDName`, `ok`.
An error is the early `return` of the loop. -/
def resolveLoop (cmdName : Str) : List Str → Str → Bool → Except Error (Str × Bool)
  | [], chosenCMDName, ok => .ok (chosenCMDName, ok)
  | key :: rest, chosenCMDName, ok =>
    if cmdName = [] ∧ key ≠ [] then resolveLoop cmdName rest chosenCMDName ok
    else if !HasPrefix key cmdName then resolveLoop cmdName rest chosenCMDName ok
    else if ok then .error (.ambiguous cmdName chosenCMDName key)
    else resolveLoop cmdName rest key true

/-- The resolve stage of `handleInput` (lines 353-370): the loop from the zero
values of `chosenCMDName` and `ok`, then the test of `ok`. -/
def resolve (order : List Str) (cmdName : Str) : Except Error Str :=
  match resolveLoop cmdName order [] false with
  | .error e => .error e
  | .ok (chosenCMDName, ok) =>
    if !ok then .error (.doesntExist cmdName) else .ok chosenCMDName

/-- The split stage of `handleInput` (lines 374-377): `args` stays `nil` unless
`rawArgs != "" && cmd.MaxArgs != 0`. -/
def splitArgs (rawArgs : Str) (MaxArgs : Int) : List Str :=
  if rawArgs ≠ [] ∧ MaxArgs ≠ 0 then SplitN rawArgs MaxArgs else []

/-- Source `handleInput` (lines 350-387), with `order` the order in which its
`range commands` loop enumerates the keys. A `nil` entry `commands[chosenCMDName]`
would panic at `cmd.MaxArgs`. -/
def handleInput (E : Env) (order : List Str) (app : App) (buffer content : Str) : Result :=
  let p := parseCommand E.upperTable content
  let cmdName := p.1
  let rawArgs := p.2
  match resolve order cmdName with
  | .error e => .ok (app, some e)
  | .ok chosenCMDName =>
    match lookupCommand chosenCMDName with
    | none => .nilPanic
    | some cmd =>
      let args := splitArgs rawArgs cmd.MaxArgs
      if (args.length : Int) < cmd.MinArgs then .ok (app, some (.usage cmdName cmd.Usage))
      else if buffer = E.Home ∧ cmd.AllowHome = false then .ok (app, some (.notFromHome cmdName))
      else callHandle cmd.Handle E app buffer args

/-- A concrete environment, used to evaluate the definitions on examples:
`Home` is `"home"`, no message echo by the server, `#`-names are channels. -/
def sampleEnv : Env where
  Home := "home".toList
  upperTable := fun c => c
  HasCapability := fun _ => false
  Nick := "me".toList
  IsChannel := fun s => s.head? = some '#'
  Names := fun _ => [⟨"@".toList, "ann".toList⟩, ⟨[], "bob".toList⟩]
  Topic := fun _ => ("hi".toList, none, [])
  formatMessage := fun ev => (ev.Target, { At := ev.Time, Head := ev.User, Body := ev.Content })
  Now := 7
  CurrentBuffer := "#chan".toList
  JumpBufferOk := fun _ => true
  Quote := fun s => Char.ofNat 34 :: s ++ [Char.ofNat 34]
  helpOrder := commandNames

/-- A concrete application state: connected, nothing called yet. -/
def sampleApp : App := { sIsNil := false, lastQuery := "bob".toList, calls := [] }

/-! ## The candidate set, in the words of the specification -/

/-- The candidate test of the specification: the fragment is a prefix of the
name, except that for the empty fragment only the empty name is a candidate. -/
def isCandidate (frag name : Str) : Bool :=
  if frag = [] then decide (name = []) else decide (frag <+: name)

/-- The candidate set of a fragment: the registry names that pass the test. -/
def candidates (frag : Str) : List Str :=
  commandNames.filter (isCandidate frag)

/-- The rows of the specification's table of registered commands for the eleven
non-empty names: name, allowHome, minArgs, maxArgs, usage. -/
def specTable : List (Str × Bool × Int × Int × Str) :=
  [ ("HELP".toList, true, 0, 1, "[command]".toList),
    ("JOIN".toList, true, 1, 2, "<channels> [keys]".toList),
    ("ME".toList, true, 1, 1, "<message>".toList),
    ("MSG".toList, true, 2, 2, "<target> <message>".toList),
    ("NAMES".toList, false, 0, 0, []),
    ("PART".toList, true, 0, 2, "[channel] [reason]".toList),
    ("QUIT".toList, true, 0, 1, "[reason]".toList),
    ("QUOTE".toList, true, 1, 1, "<raw message>".toList),
    ("REPLY".toList, true, 1, 1, "<message>".toList),
    ("TOPIC".toList, false, 0, 1, "[topic]".toList),
    ("BUFFER".toList, true, 1, 1, "<name>".toList) ]

/-- The errors of the stages of `handleInput` that come before the handler:
unknown command, ambiguous command, too few arguments, not from home. -/
def Error.isStageError : Error → Bool
  | .ambiguous _ _ _ => true
  | .doesntExist _ => true
  | .usage _ _ => true
  | .notFromHome _ => true
  | .cannotPartHome => false
  | .noBufferMatch _ => false

/-- The number of leading positions of `args` that a handler reads without a
length test: `args[0]` in `commandDo`, `commandDoJoin`, `commandDoMe`,
`commandDoQuote`, `commandDoR` and `commandDoBuffer`, `args[0]` and `args[1]`
in `commandDoMsg`, none in the other handlers. -/
def unguardedReads : Handler → Nat
  | .commandDo => 1
  | .commandDoHelp => 0
  | .commandDoJoin => 1
  | .commandDoMe => 1
  | .commandDoMsg => 2
  | .commandDoNames => 0
  | .commandDoPart => 0
  | .commandDoQuit => 0
  | .commandDoQuote => 1
  | .commandDoR => 1
  | .commandDoTopic => 0
  | .commandDoBuffer => 1

/-- The upper-case ASCII letters. -/
def upperLetters : List Char := "ABCDEFGHIJKLMNOPQRSTUVWXYZ".toList

/-- The lower-case form of an upper-case ASCII letter. -/
def asciiLower (c : Char) : Char := Char.ofNat (c.toNat + 32)

/-- The word `w` spells the upper-case name `n` in some letter case: letter by
letter, `w` has the letter of `n` or its lower-case form. -/
def isCaseVariant : Str → Str → Bool
  | [], [] => true
  | c :: w, u :: n => (decide (c = u) || decide (c = asciiLower u)) && isCaseVariant w n
  | _, _ => false

/-- An application state without a session: `app.s` is `nil`. -/
def offlineApp : App := { sIsNil := true, lastQuery := [], calls := [] }

/-! ## Facts about the string functions -/

theorem IndexByte_ge (s : Str) (c : Char) : -1 ≤ IndexByte s c := by
  induction s with
  | nil => simp [IndexByte]
  | cons x xs ih =>
    simp only [IndexByte]
    split_ifs <;> omega

theorem IndexByte_of_not_mem (s : Str) (c : Char) (h : c ∉ s) : IndexByte s c = -1 := by
  induction s with
  | nil => simp [IndexByte]
  | cons x xs ih =>
    have hx : x ≠ c := fun e => h (by simp [e])
    have hxs : c ∉ xs := fun e => h (by simp [e])
    simp [IndexByte, hx, ih hxs]

theorem IndexByte_append_cons (w r : Str) (c : Char) (h : c ∉ w) :
    IndexByte (w ++ c :: r) c = (w.length : Int) := by
  induction w with
  | nil => simp [IndexByte]
  | cons x xs ih =>
    have hx : x ≠ c := fun e => h (by simp [e])
    have hxs : c ∉ xs := fun e => h (by simp [e])
    have h1 := ih hxs
    have h2 : IndexByte (x :: (xs ++ c :: r)) c
        = if IndexByte (xs ++ c :: r) c < 0 then -1 else IndexByte (xs ++ c :: r) c + 1 := by
      simp [IndexByte, hx]
    rw [List.cons_append, h2, h1]
    split_ifs <;> push_cast [List.length_cons] <;> omega

/-- Every string splits at its first occurrence of `c`, if it has one. -/
theorem exists_first_split (s : Str) (c : Char) :
    c ∉ s ∨ ∃ w r, s = w ++ c :: r ∧ c ∉ w := by
  induction s with
  | nil => left; simp
  | cons x xs ih =>
    by_cases hx : x = c
    · right; exact ⟨[], xs, by simp [hx], by simp⟩
    · rcases ih with h | ⟨w, r, rfl, hw⟩
      · left; simp [hx, h, Ne.symm hx]
      · right; exact ⟨x :: w, r, by simp, by simp [Ne.symm hx, hw]⟩

theorem TrimLeftSpace_eq_dropWhile (s : Str) :
    TrimLeftSpace s = s.dropWhile (fun c => decide (c = ' ')) := by
  induction s with
  | nil => rfl
  | cons x xs ih =>
    by_cases hx : x = ' '
    · simp [TrimLeftSpace, hx, ih, List.dropWhile]
    · simp [TrimLeftSpace, hx, List.dropWhile]

theorem parseCommand_slash_no_space (table : Char → Char) (w : Str) (h : ' ' ∉ w) :
    parseCommand table ('/' :: w) = (ToUpper table w, []) := by
  have hi : IndexByte ('/' :: w) ' ' = -1 :=
    IndexByte_of_not_mem _ _ (by simp [h])
  simp [parseCommand, hi, TrimLeftSpace]

theorem parseCommand_slash_space (table : Char → Char) (w r : Str) (h : ' ' ∉ w) :
    parseCommand table ('/' :: (w ++ ' ' :: r))
      = (ToUpper table w, TrimLeftSpace (' ' :: r)) := by
  have hi : IndexByte ('/' :: (w ++ ' ' :: r)) ' ' = ((w.length + 1 : Nat) : Int) := by
    have := IndexByte_append_cons ('/' :: w) r ' ' (by simp [h])
    simpa using this
  have hnn : ¬ (((w.length + 1 : Nat) : Int) < 0) := by omega
  simp only [parseCommand, hi, if_neg hnn, Int.toNat_ofNat]
  simp

/-! ## Facts about the registry and the resolve loop -/

theorem HasPrefix_iff (s pre : Str) : HasPrefix s pre = true ↔ pre <+: s := by
  constructor
  · intro h
    simp only [HasPrefix, Bool.and_eq_true, decide_eq_true_eq] at h
    exact List.prefix_iff_eq_take.mpr h.2.symm
  · intro h
    simp only [HasPrefix, Bool.and_eq_true, decide_eq_true_eq]
    exact ⟨h.length_le, (List.prefix_iff_eq_take.mp h).symm⟩

/-- The two `continue` tests of the loop let a key through exactly when it is
a candidate. -/
theorem loop_tests_iff (c key : Str) :
    (¬ (c = [] ∧ key ≠ []) ∧ HasPrefix key c = true) ↔ isCandidate c key = true := by
  rw [HasPrefix_iff]
  by_cases hc : c = []
  · subst hc; simp [isCandidate]
  · simp [isCandidate, hc]

/-- The loop in terms of the keys that pass its two tests, in enumeration order. -/
theorem resolveLoop_eq (c : Str) : ∀ (l : List Str) (chosen : Str) (ok : Bool),
    resolveLoop c l chosen ok =
      match l.filter (isCandidate c), ok with
      | [], _ => .ok (chosen, ok)
      | a :: _, true => .error (.ambiguous c chosen a)
      | [a], false => .ok (a, true)
      | a :: b :: _, false => .error (.ambiguous c a b) := by
  intro l
  induction l with
  | nil => intro chosen ok; simp [resolveLoop]
  | cons key rest ih =>
    intro chosen ok
    by_cases hk : isCandidate c key = true
    · have ht := (loop_tests_iff c key).mpr hk
      have h1 : ¬ (c = [] ∧ key ≠ []) := ht.1
      have h2 : HasPrefix key c = true := ht.2
      rw [List.filter_cons_of_pos hk]
      cases ok with
      | true => simp [resolveLoop, h1, h2]
      | false =>
        have := ih key true
        simp only [resolveLoop, if_neg h1, h2]
        simp only [Bool.not_true, Bool.false_eq_true, if_false]
        rw [this]
        rcases rest.filter (isCandidate c) with _ | ⟨a, _ | ⟨b, t⟩⟩ <;> rfl
    · have hk2 : ¬ (¬ (c = [] ∧ key ≠ []) ∧ HasPrefix key c = true) :=
        fun h => hk ((loop_tests_iff c key).mp h)
      rw [List.filter_cons_of_neg hk]
      by_cases h1 : c = [] ∧ key ≠ []
      · simp only [resolveLoop, if_pos h1]; exact ih chosen ok
      · have h2 : HasPrefix key c = false := by
          cases h : HasPrefix key c
          · rfl
          · exact absurd ⟨h1, h⟩ hk2
        simp only [resolveLoop, if_neg h1, h2]
        simp only [Bool.not_false, if_true]
        exact ih chosen ok

/-- The resolve stage in terms of the keys that pass the tests of the loop. -/
theorem resolve_eq (order : List Str) (c : Str) :
    resolve order c =
      match order.filter (isCandidate c) with
      | [] => .error (.doesntExist c)
      | [a] => .ok a
      | a :: b :: _ => .error (.ambiguous c a b) := by
  unfold resolve
  rw [resolveLoop_eq]
  rcases order.filter (isCandidate c) with _ | ⟨a, _ | ⟨b, t⟩⟩ <;> simp

theorem commandNames_nodup : commandNames.Nodup := by decide

theorem filter_order_perm (order : List Str) (h : IsRangeOrder order) (c : Str) :
    (order.filter (isCandidate c)).Perm (candidates c) :=
  List.Perm.filter _ h

theorem lookupCommand_of_mem (n : Str) (h : n ∈ commandNames) :
    ∃ d, lookupCommand n = some d ∧ (n, d) ∈ commands := by
  simp only [commandNames, commands, List.map_cons, List.map_nil, List.mem_cons,
    List.mem_singleton, List.not_mem_nil, or_false] at h
  rcases h with h | h | h | h | h | h | h | h | h | h | h | h <;> subst h <;>
    exact ⟨_, rfl, by decide⟩

theorem handleInput_of_error (E : Env) (order : List Str) (app : App) (buffer content : Str)
    (e : Error) (h : resolve order (parseCommand E.upperTable content).1 = .error e) :
    handleInput E order app buffer content = .ok (app, some e) := by
  simp [handleInput, h]

theorem handleInput_of_ok (E : Env) (order : List Str) (app : App) (buffer content : Str)
    (n : Str) (d : command)
    (h : resolve order (parseCommand E.upperTable content).1 = .ok n)
    (hd : lookupCommand n = some d) :
    handleInput E order app buffer content =
      if ((splitArgs (parseCommand E.upperTable content).2 d.MaxArgs).length : Int) < d.MinArgs then
        .ok (app, some (.usage (parseCommand E.upperTable content).1 d.Usage))
      else if buffer = E.Home ∧ d.AllowHome = false then
        .ok (app, some (.notFromHome (parseCommand E.upperTable content).1))
      else
        callHandle d.Handle E app buffer (splitArgs (parseCommand E.upperTable content).2 d.MaxArgs) := by
  simp [handleInput, h, hd]

/-- The resolve stage finds the name `n` when, in source order, `n` is the only
key that passes the tests of the loop. -/
theorem resolve_of_candidates (order : List Str) (horder : IsRangeOrder order) (frag n : Str)
    (h : candidates frag = [n]) : resolve order frag = .ok n := by
  have hperm := filter_order_perm order horder frag
  rw [h] at hperm
  rw [resolve_eq, List.perm_singleton.mp hperm]

theorem candidates_nil : candidates [] = [[]] := by decide

theorem parseCommand_nil (table : Char → Char) : parseCommand table [] = ([], []) := by
  simp [parseCommand]

theorem parseCommand_plain (table : Char → Char) (s : Str) (h1 : s ≠ [])
    (h2 : s.head? ≠ some '/') : parseCommand table s = ([], s) := by
  simp [parseCommand, h1, h2]

theorem lookupCommand_default :
    lookupCommand [] = some { MinArgs := 1, MaxArgs := 1, Handle := .commandDo } := by
  decide

/-! ## Facts about splitting -/

theorem splitLoop_of_no_space (k : Nat) (s : Str) (h : ' ' ∉ s) : splitLoop k s = [s] := by
  cases k with
  | zero => rfl
  | succ k => simp [splitLoop, IndexByte_of_not_mem s ' ' h]

theorem splitLoop_succ_of_space (k : Nat) (w r : Str) (h : ' ' ∉ w) :
    splitLoop (k + 1) (w ++ ' ' :: r) = w :: splitLoop k r := by
  have hi := IndexByte_append_cons w r ' ' h
  have hnn : ¬ ((w.length : Int) < 0) := by omega
  simp only [splitLoop, hi, if_neg hnn, Int.toNat_ofNat]
  simp

theorem splitLoop_ne_nil (k : Nat) (s : Str) : splitLoop k s ≠ [] := by
  cases k with
  | zero => simp [splitLoop]
  | succ k =>
    rcases exists_first_split s ' ' with h | ⟨w, r, rfl, hw⟩
    · simp [splitLoop_of_no_space _ _ h]
    · simp [splitLoop_succ_of_space _ _ _ hw]

theorem splitLoop_length_le (k : Nat) : ∀ s : Str, (splitLoop k s).length ≤ k + 1 := by
  induction k with
  | zero => intro s; simp [splitLoop]
  | succ k ih =>
    intro s
    rcases exists_first_split s ' ' with h | ⟨w, r, rfl, hw⟩
    · simp [splitLoop_of_no_space _ _ h]
    · have := ih r
      simp [splitLoop_succ_of_space _ _ _ hw]
      omega

theorem JoinSpace_cons (a : Str) (l : List Str) (h : l ≠ []) :
    JoinSpace (a :: l) = a ++ ' ' :: JoinSpace l := by
  cases l with
  | nil => exact absurd rfl h
  | cons b rest => rfl

theorem splitLoop_join (k : Nat) : ∀ s : Str, JoinSpace (splitLoop k s) = s := by
  induction k with
  | zero => intro s; simp [splitLoop, JoinSpace]
  | succ k ih =>
    intro s
    rcases exists_first_split s ' ' with h | ⟨w, r, rfl, hw⟩
    · simp [splitLoop_of_no_space _ _ h, JoinSpace]
    · rw [splitLoop_succ_of_space _ _ _ hw, JoinSpace_cons _ _ (splitLoop_ne_nil k r), ih r]

theorem splitLoop_init_no_space (k : Nat) :
    ∀ s : Str, ∀ f ∈ (splitLoop k s).dropLast, ' ' ∉ f := by
  induction k with
  | zero => intro s f hf; simp [splitLoop] at hf
  | succ k ih =>
    intro s f hf
    rcases exists_first_split s ' ' with h | ⟨w, r, rfl, hw⟩
    · simp [splitLoop_of_no_space _ _ h] at hf
    · rw [splitLoop_succ_of_space _ _ _ hw] at hf
      rcases hl : splitLoop k r with _ | ⟨b, rest⟩
      · exact absurd hl (splitLoop_ne_nil k r)
      · rw [hl, List.dropLast_cons₂] at hf
        rcases List.mem_cons.mp hf with h | h
        · rw [h]; exact hw
        · exact ih r f (by rw [hl]; exact h)

/-- What `SplitN` returns for a positive field count. -/
theorem SplitN_pos (s : Str) (n : Int) (hn : 1 ≤ n) :
    1 ≤ (SplitN s n).length ∧ ((SplitN s n).length : Int) ≤ n ∧
    (∀ f ∈ (SplitN s n).dropLast, ' ' ∉ f) ∧ JoinSpace (SplitN s n) = s := by
  have h0 : n ≠ 0 := by omega
  have h1 : ¬ n < 0 := by omega
  simp only [SplitN, if_neg h0, if_neg h1]
  refine ⟨?_, ?_, splitLoop_init_no_space _ s, splitLoop_join _ s⟩
  · exact Nat.pos_of_ne_zero (fun h => splitLoop_ne_nil _ s (List.length_eq_zero.mp h))
  · have hle := splitLoop_length_le
      ((if n > (s.length : Int) + 1 then (s.length : Int) + 1 else n) - 1).toNat s
    split_ifs at hle ⊢ <;> omega

theorem parseCommand_join_example (table : Char → Char) :
    parseCommand table "/join #a,#b key1,key2".toList
      = ("JOIN".toList, "#a,#b key1,key2".toList) := by
  rfl

theorem parseCommand_names (table : Char → Char) (t : Str) :
    parseCommand table ("/names ".toList ++ t) = ("NAMES".toList, TrimLeftSpace t) := by
  have h := parseCommand_slash_space table "names".toList t (by decide)
  have h2 : TrimLeftSpace (' ' :: t) = TrimLeftSpace t := by simp [TrimLeftSpace]
  rw [h2] at h
  exact h

/-! ## Facts about the handlers -/

/-- An error returned by a handler is never one of the stage errors. -/
theorem callHandle_error (h : Handler) (E : Env) (app : App) (buffer : Str)
    (args : List Str) (app1 : App) (e : Error)
    (hh : callHandle h E app buffer args = .ok (app1, some e)) :
    e.isStageError = false := by
  cases h <;> rcases args with _ | ⟨a, _ | ⟨b, t⟩⟩ <;>
    simp only [callHandle, commandDo, commandDoHelp, commandDoJoin, commandDoMe,
      commandDoMsg, commandDoNames, commandDoPart, commandDoQuit, commandDoQuote, commandDoR,
      commandDoTopic, commandDoBuffer, partChannel, List.getElem?_cons_zero,
      List.getElem?_cons_succ, List.getElem?_nil, List.length_cons, List.length_nil] at hh <;>
    (try split_ifs at hh) <;>
    (try simp at hh) <;>
    (try (rw [← hh.2]; rfl))

/-- When a fragment has two or more candidates, the resolve stage reports the
first two keys of the enumeration that pass the tests: two distinct registered
names that are candidates. -/
theorem resolve_ambiguous (order : List Str) (horder : IsRangeOrder order) (frag : Str)
    (h2 : 2 ≤ (candidates frag).length) :
    ∃ a b, resolve order frag = .error (.ambiguous frag a b) ∧ a ≠ b ∧
      a ∈ candidates frag ∧ b ∈ candidates frag := by
  have hperm := filter_order_perm order horder frag
  have hlen := hperm.length_eq
  have hnd : (order.filter (isCandidate frag)).Nodup :=
    (List.Perm.nodup_iff horder).mpr commandNames_nodup |>.filter _
  have hres := resolve_eq order frag
  rcases hf : order.filter (isCandidate frag) with _ | ⟨a, _ | ⟨b, t⟩⟩
  · rw [hf] at hlen; simp at hlen; omega
  · rw [hf] at hlen; simp at hlen; omega
  · rw [hf] at hres hnd hperm
    refine ⟨a, b, hres, ?_, ?_, ?_⟩
    · intro hab
      rw [hab] at hnd
      simp at hnd
    · exact hperm.subset (by simp)
    · exact hperm.subset (by simp)

theorem parseCommand_m (table : Char → Char) (tail : Str)
    (ht : tail = [] ∨ ∃ r, tail = ' ' :: r) :
    (parseCommand table ("/m".toList ++ tail)).1 = "M".toList := by
  rcases ht with rfl | ⟨r, rfl⟩
  · rfl
  · have h := parseCommand_slash_space table "m".toList r (by decide)
    have e : "/m".toList ++ ' ' :: r = '/' :: ("m".toList ++ ' ' :: r) := rfl
    rw [e, h]
    rfl

/-! ## Claims -/

/-- C1: for every input line `s`, `parseCommand s` is `("", "")` when `s` is
empty; `("", s)` when `s` is non-empty and does not begin with `/`; and for a
line `/w` without a space it is (upper-case of `w`, `""`), for a line
`/w` followed by a space and `r`, where `w` has no space, it is (upper-case of
`w`, the text from that first space onward without its leading spaces). Every
line that begins with `/` has exactly one of these two shapes. -/
theorem parseCommand_spec (table : Char → Char) (s : Str) :
    (s = [] → parseCommand table s = ([], [])) ∧
    (s ≠ [] → s.head? ≠ some '/' → parseCommand table s = ([], s)) ∧
    (∀ w, s = '/' :: w → ' ' ∉ w → parseCommand table s = (ToUpper table w, [])) ∧
    (∀ w r, s = '/' :: (w ++ ' ' :: r) → ' ' ∉ w →
      parseCommand table s
        = (ToUpper table w, (' ' :: r).dropWhile (fun c => decide (c = ' ')))) ∧
    (s.head? = some '/' →
      (∃ w, s = '/' :: w ∧ ' ' ∉ w) ∨ (∃ w r, s = '/' :: (w ++ ' ' :: r) ∧ ' ' ∉ w)) := by
  refine ⟨?_, ?_, ?_, ?_, ?_⟩
  · intro h; simp [parseCommand, h]
  · intro h1 h2; simp [parseCommand, h1, h2]
  · intro w hs hw; subst hs; exact parseCommand_slash_no_space table w hw
  · intro w r hs hw; subst hs
    rw [parseCommand_slash_space table w r hw, TrimLeftSpace_eq_dropWhile]
  · intro h
    cases s with
    | nil => simp at h
    | cons x xs =>
      simp at h; subst h
      rcases exists_first_split xs ' ' with h | ⟨w, r, rfl, hw⟩
      · exact Or.inl ⟨xs, rfl, h⟩
      · exact Or.inr ⟨w, r, rfl, hw⟩

/-- C1, evaluated on `/join  #a,#b key1,key2` (two spaces after the name). -/
theorem parseCommand_spec_witness :
    (' ' ∉ "join".toList) ∧
    parseCommand (fun c => c) "/join  #a,#b key1,key2".toList
      = ("JOIN".toList, "#a,#b key1,key2".toList) :=
  ⟨by decide,
   (parseCommand_spec (fun c => c) "/join  #a,#b key1,key2".toList).2.2.2.1
      "join".toList " #a,#b key1,key2".toList rfl (by decide)⟩

/-- C2: for every command fragment and every enumeration order of the registry,
the resolve stage of `handleInput` fails with the "doesn't exist" error exactly
when the candidate set is empty, fails with an "ambiguous command" error exactly
when the candidate set has two or more names, fails in no other way, and for a
single candidate resolves to it, `handleInput` going on with that name's
descriptor; a failure of the stage is what `handleInput` returns. In particular
two distinct registered names that are both candidates make it report ambiguity. -/
theorem resolve_spec (order : List Str) (horder : IsRangeOrder order) (frag : Str) :
    (resolve order frag = .error (.doesntExist frag) ↔ candidates frag = []) ∧
    ((∃ a b, resolve order frag = .error (.ambiguous frag a b)) ↔
      2 ≤ (candidates frag).length) ∧
    (∀ e, resolve order frag = .error e →
      e = .doesntExist frag ∨ ∃ a b, e = .ambiguous frag a b) ∧
    (∀ n, candidates frag = [n] →
      resolve order frag = .ok n ∧
      ∃ d, lookupCommand n = some d ∧ (n, d) ∈ commands ∧
        ∀ (E : Env) (app : App) (buffer line : Str),
          (parseCommand E.upperTable line).1 = frag →
          handleInput E order app buffer line =
            if ((splitArgs (parseCommand E.upperTable line).2 d.MaxArgs).length : Int)
                < d.MinArgs then
              .ok (app, some (.usage frag d.Usage))
            else if buffer = E.Home ∧ d.AllowHome = false then
              .ok (app, some (.notFromHome frag))
            else
              callHandle d.Handle E app buffer
                (splitArgs (parseCommand E.upperTable line).2 d.MaxArgs)) ∧
    (∀ (E : Env) (app : App) (buffer line : Str) (e : Error),
      (parseCommand E.upperTable line).1 = frag → resolve order frag = .error e →
      handleInput E order app buffer line = .ok (app, some e)) ∧
    (∀ a b, a ∈ commandNames → b ∈ commandNames → a ≠ b →
      isCandidate frag a = true → isCandidate frag b = true →
      ∃ x y, resolve order frag = .error (.ambiguous frag x y)) := by
  have hperm := filter_order_perm order horder frag
  have hlen := hperm.length_eq
  have hres := resolve_eq order frag
  have htwo : 2 ≤ (candidates frag).length →
      ∃ a b, resolve order frag = .error (.ambiguous frag a b) := by
    intro h2
    rcases hf : order.filter (isCandidate frag) with _ | ⟨a, _ | ⟨b, t⟩⟩
    · rw [hf] at hlen; simp at hlen; omega
    · rw [hf] at hlen; simp at hlen; omega
    · rw [hf] at hres; exact ⟨a, b, hres⟩
  refine ⟨?_, ?_, ?_, ?_, ?_, ?_⟩
  · rcases hf : order.filter (isCandidate frag) with _ | ⟨a, _ | ⟨b, t⟩⟩
    · rw [hf] at hres hperm
      have : candidates frag = [] := List.Perm.eq_nil hperm.symm
      simp [hres, this]
    · rw [hf] at hres hlen
      have hne : candidates frag ≠ [] := fun h => by rw [h] at hlen; simp at hlen
      simp [hres, hne]
    · rw [hf] at hres hlen
      have hne : candidates frag ≠ [] := fun h => by rw [h] at hlen; simp at hlen
      simp [hres, hne]
  · constructor
    · rintro ⟨a, b, hab⟩
      rcases hf : order.filter (isCandidate frag) with _ | ⟨x, _ | ⟨y, t⟩⟩
      · rw [hf] at hres; rw [hres] at hab; simp at hab
      · rw [hf] at hres; rw [hres] at hab; simp at hab
      · rw [hf] at hlen; simp at hlen; omega
    · exact htwo
  · intro e he
    rcases hf : order.filter (isCandidate frag) with _ | ⟨x, _ | ⟨y, t⟩⟩
    · rw [hf] at hres; rw [hres] at he
      left; simpa using he.symm
    · rw [hf] at hres; rw [hres] at he; simp at he
    · rw [hf] at hres; rw [hres] at he
      right; exact ⟨x, y, by simpa using he.symm⟩
  · intro n hn
    rw [hn] at hperm
    have hf : order.filter (isCandidate frag) = [n] := List.perm_singleton.mp hperm
    rw [hf] at hres
    have hmem : n ∈ commandNames := by
      have : n ∈ candidates frag := by rw [hn]; simp
      exact (List.mem_filter.mp this).1
    obtain ⟨d, hd, hin⟩ := lookupCommand_of_mem n hmem
    refine ⟨hres, d, hd, hin, ?_⟩
    intro E app buffer line hfrag
    have h := handleInput_of_ok E order app buffer line n d (by rw [hfrag]; exact hres) hd
    rw [hfrag] at h
    exact h
  · intro E app buffer line e hfrag he
    exact handleInput_of_error E order app buffer line e (by rw [hfrag]; exact he)
  · intro a b ha hb hab hca hcb
    apply htwo
    have hsub : [a, b].Sublist (candidates frag) ∨ [b, a].Sublist (candidates frag) := by
      have ha' : a ∈ candidates frag := List.mem_filter.mpr ⟨ha, hca⟩
      have hb' : b ∈ candidates frag := List.mem_filter.mpr ⟨hb, hcb⟩
      obtain ⟨s, t, hst⟩ := List.append_of_mem ha'
      rw [hst] at hb' ⊢
      rcases List.mem_append.mp hb' with h | h
      · right
        have h1 : [b].Sublist s := List.singleton_sublist.mpr h
        exact List.Sublist.append h1 (List.singleton_sublist.mpr (List.mem_cons_self a t))
      · rcases List.mem_cons.mp h with h | h
        · exact absurd h.symm hab
        · left
          have h1 : [a, b].Sublist (a :: t) :=
            List.Sublist.cons₂ a (List.singleton_sublist.mpr h)
          exact h1.trans (List.sublist_append_right s (a :: t))
    rcases hsub with h | h <;> simpa using h.length_le

/-- C2, evaluated in source order on the fragment `M`, whose candidates are
`ME` and `MSG`. -/
theorem resolve_spec_witness :
    IsRangeOrder commandNames ∧
    ∃ a b, resolve commandNames "M".toList = .error (.ambiguous "M".toList a b) :=
  ⟨List.Perm.refl _,
   ((resolve_spec commandNames (List.Perm.refl _) "M".toList).2.1).mpr (by decide)⟩

/-- C3: for every line and buffer where resolution succeeds with descriptor `d`
and the split argument list is `args`: `handleInput` returns the usage error if
`len(args) < d.MinArgs`, whatever the buffer; otherwise the "cannot be executed
from home" error if the buffer is `Home` and `d.AllowHome` is false; otherwise
exactly the result of `d.Handle(app, buffer, args)`. The empty line fails with
the usage error from every buffer. -/
theorem handleInput_validate (E : Env) (order : List Str) (horder : IsRangeOrder order)
    (app : App) (buffer line n : Str) (d : command)
    (hres : resolve order (parseCommand E.upperTable line).1 = .ok n)
    (hd : lookupCommand n = some d) :
    (((splitArgs (parseCommand E.upperTable line).2 d.MaxArgs).length : Int) < d.MinArgs →
      handleInput E order app buffer line
        = .ok (app, some (.usage (parseCommand E.upperTable line).1 d.Usage))) ∧
    (¬ ((splitArgs (parseCommand E.upperTable line).2 d.MaxArgs).length : Int) < d.MinArgs →
      buffer = E.Home → d.AllowHome = false →
      handleInput E order app buffer line
        = .ok (app, some (.notFromHome (parseCommand E.upperTable line).1))) ∧
    (¬ ((splitArgs (parseCommand E.upperTable line).2 d.MaxArgs).length : Int) < d.MinArgs →
      ¬ (buffer = E.Home ∧ d.AllowHome = false) →
      handleInput E order app buffer line
        = callHandle d.Handle E app buffer
            (splitArgs (parseCommand E.upperTable line).2 d.MaxArgs)) ∧
    (∀ (app0 : App) (buffer0 : Str),
      handleInput E order app0 buffer0 [] = .ok (app0, some (.usage [] []))) := by
  have h := handleInput_of_ok E order app buffer line n d hres hd
  refine ⟨?_, ?_, ?_, ?_⟩
  · intro h1; rw [h, if_pos h1]
  · intro h1 h2 h3; rw [h, if_neg h1, if_pos ⟨h2, h3⟩]
  · intro h1 h2; rw [h, if_neg h1, if_neg h2]
  · intro app0 buffer0
    have hr : resolve order (parseCommand E.upperTable []).1 = .ok [] := by
      rw [parseCommand_nil]
      exact resolve_of_candidates order horder [] [] candidates_nil
    rw [handleInput_of_ok E order app0 buffer0 [] [] _ hr lookupCommand_default]
    simp [parseCommand_nil, splitArgs]

/-- C3, evaluated on the line `/names` typed in `Home`: `NAMES` is not allowed
there. -/
theorem handleInput_validate_witness :
    IsRangeOrder commandNames ∧
    handleInput sampleEnv commandNames sampleApp "home".toList "/names".toList
      = .ok (sampleApp, some (.notFromHome "NAMES".toList)) :=
  ⟨List.Perm.refl _,
   (handleInput_validate sampleEnv commandNames (List.Perm.refl _) sampleApp "home".toList
      "/names".toList "NAMES".toList
      (⟨false, 0, 0, [], "show the member list of the current channel".toList, .commandDoNames⟩)
      rfl (by decide)).2.1
      (by decide) rfl rfl⟩

/-- C4: for every input line, when the resolved command has a non-empty
argument tail and `MaxArgs >= 1`, the argument list has at least 1 and at most
`MaxArgs` fields, every field before the last contains no space, and joining
the fields with single spaces gives back the argument tail; this is the list
the handler receives when both checks pass. The line `/join #a,#b key1,key2`
hands exactly `["#a,#b", "key1,key2"]` to the `JOIN` handler. -/
theorem splitArgs_fields (E : Env) (order : List Str) (horder : IsRangeOrder order)
    (line n : Str) (d : command)
    (hres : resolve order (parseCommand E.upperTable line).1 = .ok n)
    (hd : lookupCommand n = some d)
    (htail : (parseCommand E.upperTable line).2 ≠ [])
    (hmax : 1 ≤ d.MaxArgs) :
    1 ≤ (splitArgs (parseCommand E.upperTable line).2 d.MaxArgs).length ∧
    ((splitArgs (parseCommand E.upperTable line).2 d.MaxArgs).length : Int) ≤ d.MaxArgs ∧
    (∀ f ∈ (splitArgs (parseCommand E.upperTable line).2 d.MaxArgs).dropLast, ' ' ∉ f) ∧
    JoinSpace (splitArgs (parseCommand E.upperTable line).2 d.MaxArgs)
      = (parseCommand E.upperTable line).2 ∧
    (∀ (app : App) (buffer : Str),
      ¬ ((splitArgs (parseCommand E.upperTable line).2 d.MaxArgs).length : Int) < d.MinArgs →
      ¬ (buffer = E.Home ∧ d.AllowHome = false) →
      handleInput E order app buffer line
        = callHandle d.Handle E app buffer
            (splitArgs (parseCommand E.upperTable line).2 d.MaxArgs)) ∧
    (∀ (app : App) (buffer : Str),
      splitArgs (parseCommand E.upperTable "/join #a,#b key1,key2".toList).2 2
        = ["#a,#b".toList, "key1,key2".toList] ∧
      handleInput E order app buffer "/join #a,#b key1,key2".toList
        = commandDoJoin E app buffer ["#a,#b".toList, "key1,key2".toList]) := by
  have hm0 : d.MaxArgs ≠ 0 := by omega
  have hsplit : splitArgs (parseCommand E.upperTable line).2 d.MaxArgs
      = SplitN (parseCommand E.upperTable line).2 d.MaxArgs := by
    simp [splitArgs, htail, hm0]
  rw [hsplit]
  obtain ⟨h1, h2, h3, h4⟩ := SplitN_pos (parseCommand E.upperTable line).2 d.MaxArgs hmax
  refine ⟨h1, h2, h3, h4, ?_, ?_⟩
  · intro app buffer ha hb
    rw [handleInput_of_ok E order app buffer line n d hres hd, hsplit, if_neg ha, if_neg hb]
  · intro app buffer
    have hp := parseCommand_join_example E.upperTable
    have hr : resolve order (parseCommand E.upperTable "/join #a,#b key1,key2".toList).1
        = .ok "JOIN".toList := by
      rw [hp]
      exact resolve_of_candidates order horder "JOIN".toList "JOIN".toList (by decide)
    have hl : lookupCommand "JOIN".toList = some ⟨true, 1, 2, "<channels> [keys]".toList,
        "join a channel".toList, .commandDoJoin⟩ := by decide
    have hs : splitArgs (parseCommand E.upperTable "/join #a,#b key1,key2".toList).2 2
        = ["#a,#b".toList, "key1,key2".toList] := by
      rw [hp]; decide
    refine ⟨hs, ?_⟩
    rw [handleInput_of_ok E order app buffer _ _ _ hr hl]
    simp only [hs]
    simp [callHandle]

/-- C4, evaluated on `/msg bob hello there` in source order: two fields, the
second keeping its space. -/
theorem splitArgs_fields_witness :
    IsRangeOrder commandNames ∧
    JoinSpace (splitArgs (parseCommand sampleEnv.upperTable "/msg bob hello there".toList).2 2)
      = "bob hello there".toList :=
  ⟨List.Perm.refl _,
   (splitArgs_fields sampleEnv commandNames (List.Perm.refl _) "/msg bob hello there".toList
      "MSG".toList
      (⟨true, 2, 2, "<target> <message>".toList, "send a message to the given target".toList,
        .commandDoMsg⟩)
      rfl (by decide) (by decide) (by decide)).2.2.2.1⟩

/-- C5: for every input line, if the argument tail is empty or the resolved
command's `MaxArgs` is 0, the argument list is empty; and for every trailing
text `t` and every buffer other than `Home`, the line `/names ` followed by `t`
invokes the `NAMES` handler with zero arguments: the outcome is that of `/names`
alone, no error is returned, and with a session the handler returns `nil`. -/
theorem names_discards_trailing_text (E : Env) (order : List Str)
    (horder : IsRangeOrder order) (app : App) (buffer : Str) (hb : buffer ≠ E.Home)
    (t : Str) :
    (∀ (line n : Str) (d : command),
      resolve order (parseCommand E.upperTable line).1 = .ok n → lookupCommand n = some d →
      (parseCommand E.upperTable line).2 = [] ∨ d.MaxArgs = 0 →
      splitArgs (parseCommand E.upperTable line).2 d.MaxArgs = []) ∧
    handleInput E order app buffer ("/names ".toList ++ t) = commandDoNames E app buffer [] ∧
    handleInput E order app buffer ("/names ".toList ++ t)
      = handleInput E order app buffer "/names".toList ∧
    (∀ (app1 : App) (e : Error),
      handleInput E order app buffer ("/names ".toList ++ t) ≠ .ok (app1, some e)) ∧
    (app.sIsNil = false →
      ∃ app1, handleInput E order app buffer ("/names ".toList ++ t) = .ok (app1, none)) := by
  have hl : lookupCommand "NAMES".toList = some ⟨false, 0, 0, [],
      "show the member list of the current channel".toList, .commandDoNames⟩ := by decide
  have hc : candidates "NAMES".toList = ["NAMES".toList] := by decide
  have h1 : handleInput E order app buffer ("/names ".toList ++ t)
      = commandDoNames E app buffer [] := by
    have hp := parseCommand_names E.upperTable t
    have hr : resolve order (parseCommand E.upperTable ("/names ".toList ++ t)).1
        = .ok "NAMES".toList := by
      rw [hp]
      exact resolve_of_candidates order horder "NAMES".toList "NAMES".toList hc
    rw [handleInput_of_ok E order app buffer _ _ _ hr hl]
    simp [splitArgs, hb, callHandle]
  have h2 : handleInput E order app buffer "/names".toList
      = commandDoNames E app buffer [] := by
    have hp : parseCommand E.upperTable "/names".toList = ("NAMES".toList, []) := rfl
    have hr : resolve order (parseCommand E.upperTable "/names".toList).1
        = .ok "NAMES".toList := by
      rw [hp]
      exact resolve_of_candidates order horder "NAMES".toList "NAMES".toList hc
    rw [handleInput_of_ok E order app buffer _ _ _ hr hl]
    simp [hp, splitArgs, hb, callHandle]
  refine ⟨?_, h1, h1.trans h2.symm, ?_, ?_⟩
  · intro line n d _ _ h
    rcases h with h | h <;> simp [splitArgs, h]
  · intro app1 e
    rw [h1]
    simp only [commandDoNames]
    split_ifs <;> simp
  · intro hs
    rw [h1]
    simp [commandDoNames, hs]

/-- C5, evaluated on `/names extra text` typed in `#chan`. -/
theorem names_discards_trailing_text_witness :
    IsRangeOrder commandNames ∧ "#chan".toList ≠ sampleEnv.Home ∧
    handleInput sampleEnv commandNames sampleApp "#chan".toList "/names extra text".toList
      = commandDoNames sampleEnv sampleApp "#chan".toList [] :=
  ⟨List.Perm.refl _, by decide,
   (names_discards_trailing_text sampleEnv commandNames (List.Perm.refl _) sampleApp
      "#chan".toList (by decide) "extra text".toList).2.1⟩

/-- C6, as the claim states it, fails: the empty-name entry does not have
`AllowHome = true`. -/
theorem default_command_allowHome_refuted :
    ¬ ∃ d, lookupCommand [] = some d ∧ d.AllowHome = true ∧ d.MinArgs = 1 ∧ d.MaxArgs = 1 := by
  rintro ⟨d, hd, ha, _⟩
  rw [lookupCommand_default] at hd
  cases hd
  simp at ha

/-- C6, amended: the empty-name registry entry is the default command, to which
every line that does not begin with `/` resolves, with handler `commandDo`, and
it has `AllowHome = false`, `MinArgs = 1` and `MaxArgs = 1`. -/
theorem default_command_entry :
    (∃ d, lookupCommand [] = some d ∧ d.AllowHome = false ∧ d.MinArgs = 1 ∧ d.MaxArgs = 1 ∧
      d.Handle = .commandDo) ∧
    (∀ (order : List Str) (table : Char → Char) (line : Str),
      IsRangeOrder order → line.head? ≠ some '/' →
      resolve order (parseCommand table line).1 = .ok []) := by
  refine ⟨⟨_, lookupCommand_default, rfl, rfl, rfl, rfl⟩, ?_⟩
  intro order table line horder hline
  have hp : (parseCommand table line).1 = [] := by
    by_cases h : line = []
    · simp [parseCommand, h]
    · simp [parseCommand, h, hline]
  rw [hp]
  exact resolve_of_candidates order horder [] [] candidates_nil

/-- C6 amended, evaluated on the line `hello` in source order. -/
theorem default_command_entry_witness :
    IsRangeOrder commandNames ∧ "hello".toList.head? ≠ some '/' ∧
    resolve commandNames (parseCommand (fun c => c) "hello".toList).1 = .ok [] :=
  ⟨List.Perm.refl _, by decide,
   default_command_entry.2 commandNames (fun c => c) "hello".toList (List.Perm.refl _)
     (by decide)⟩

/-- C7, as the claim states it, fails in the buffer `Home`: the line `hello`
typed there is rejected and the default handler is not invoked. It also fails
without a session: in `#chan` the handler is invoked and panics at
`app.s.PrivMsg`, so that no message is sent. -/
theorem plain_line_from_home_refuted :
    handleInput sampleEnv commandNames sampleApp sampleEnv.Home "hello".toList
      = .ok (sampleApp, some (.notFromHome [])) ∧
    handleInput sampleEnv commandNames sampleApp sampleEnv.Home "hello".toList
      ≠ commandDo sampleEnv sampleApp sampleEnv.Home ["hello".toList] ∧
    handleInput sampleEnv commandNames offlineApp "#chan".toList "hello".toList
      = .nilPanic := by
  refine ⟨by decide, by decide, by decide⟩

/-- C7, amended: for every non-empty line that does not begin with `/`,
`handleInput` resolves to the default command and builds the argument list
`[line]`; in every buffer other than `Home` it invokes the default handler,
which, when the application has a session, sends the line as a message to the
current buffer (and echoes it); in `Home` it returns the "cannot be executed
from home" error. -/
theorem plain_line_dispatch (E : Env) (order : List Str) (horder : IsRangeOrder order)
    (app : App) (buffer line : Str) (h1 : line ≠ []) (h2 : line.head? ≠ some '/') :
    resolve order (parseCommand E.upperTable line).1 = .ok [] ∧
    splitArgs (parseCommand E.upperTable line).2 1 = [line] ∧
    (buffer ≠ E.Home →
      handleInput E order app buffer line = commandDo E app buffer [line] ∧
      (app.sIsNil = false →
        commandDo E app buffer [line]
          = .ok (echoMessage E (app.call (.PrivMsg buffer line)) buffer line, none))) ∧
    (buffer = E.Home →
      handleInput E order app buffer line = .ok (app, some (.notFromHome []))) := by
  have hp := parseCommand_plain E.upperTable line h1 h2
  have hr : resolve order (parseCommand E.upperTable line).1 = .ok [] := by
    rw [hp]; exact resolve_of_candidates order horder [] [] candidates_nil
  have hs : splitArgs (parseCommand E.upperTable line).2 1 = [line] := by
    rw [hp]
    have : ¬ ((1 : Int) > (line.length : Int) + 1) := by omega
    simp [splitArgs, h1, SplitN, this, splitLoop]
  have hi := handleInput_of_ok E order app buffer line [] _ hr lookupCommand_default
  simp only [hs] at hi
  refine ⟨hr, hs, ?_, ?_⟩
  · intro hb
    refine ⟨?_, ?_⟩
    · rw [hi]
      simp [hb, callHandle]
    · intro hsess
      simp [commandDo, hsess]
  · intro hb
    rw [hi]
    simp [hb, hp]

/-- C7 amended, evaluated on the line `hello world` typed in `#chan`. -/
theorem plain_line_dispatch_witness :
    IsRangeOrder commandNames ∧
    handleInput sampleEnv commandNames sampleApp "#chan".toList "hello world".toList
      = commandDo sampleEnv sampleApp "#chan".toList ["hello world".toList] :=
  ⟨List.Perm.refl _,
   ((plain_line_dispatch sampleEnv commandNames (List.Perm.refl _) sampleApp "#chan".toList
      "hello world".toList (by decide) (by decide)).2.2.1 (by decide)).1⟩

/-- C8: the registry's names are exactly the empty name, `HELP`, `JOIN`, `ME`,
`MSG`, `NAMES`, `PART`, `QUIT`, `QUOTE`, `REPLY`, `TOPIC` and `BUFFER`, each once,
and for each of the eleven non-empty names the entry's `AllowHome`, `MinArgs`,
`MaxArgs` and `Usage` are the values of the specification's table. -/
theorem registry_table :
    commandNames = ["".toList, "HELP".toList, "JOIN".toList, "ME".toList, "MSG".toList,
      "NAMES".toList, "PART".toList, "QUIT".toList, "QUOTE".toList, "REPLY".toList,
      "TOPIC".toList, "BUFFER".toList] ∧
    commandNames.Nodup ∧
    specTable.map Prod.fst = commandNames.filter (fun n => decide (n ≠ [])) ∧
    (∀ row ∈ specTable,
      (lookupCommand row.1).map (fun d => (d.AllowHome, d.MinArgs, d.MaxArgs, d.Usage))
        = some row.2) := by
  refine ⟨by decide, commandNames_nodup, by decide, by decide⟩

/-- C9: for every fragment with two or more candidates and every enumeration
order of the registry, the ambiguity error names the typed fragment and two
distinct registered names, each of which has the fragment as a prefix; and for
every tail, the text that follows the fragment on the line (nothing, or a space
and any text), `/m` followed by that tail fails with an ambiguity error whose two
reported names are `ME` and `MSG`, in either order. -/
theorem ambiguity_report (order : List Str) (horder : IsRangeOrder order) (frag : Str)
    (h2 : 2 ≤ (candidates frag).length) :
    (∃ a b, resolve order frag = .error (.ambiguous frag a b) ∧ a ≠ b ∧
      a ∈ commandNames ∧ b ∈ commandNames ∧ frag <+: a ∧ frag <+: b) ∧
    (∀ (E : Env) (app : App) (buffer tail : Str), (tail = [] ∨ ∃ r, tail = ' ' :: r) →
      handleInput E order app buffer ("/m".toList ++ tail)
          = .ok (app, some (.ambiguous "M".toList "ME".toList "MSG".toList)) ∨
      handleInput E order app buffer ("/m".toList ++ tail)
          = .ok (app, some (.ambiguous "M".toList "MSG".toList "ME".toList))) := by
  constructor
  · obtain ⟨a, b, hres, hab, ha, hb⟩ := resolve_ambiguous order horder frag h2
    have hne : frag ≠ [] := by
      intro h
      rw [h, candidates_nil] at h2
      simp at h2
    have hpre : ∀ x, x ∈ candidates frag → x ∈ commandNames ∧ frag <+: x := by
      intro x hx
      have := List.mem_filter.mp hx
      refine ⟨this.1, ?_⟩
      simpa [isCandidate, hne] using this.2
    exact ⟨a, b, hres, hab, (hpre a ha).1, (hpre b hb).1, (hpre a ha).2, (hpre b hb).2⟩
  · intro E app buffer tail ht
    have hp := parseCommand_m E.upperTable tail ht
    have hc : candidates "M".toList = ["ME".toList, "MSG".toList] := by decide
    obtain ⟨a, b, hres, hab, ha, hb⟩ :=
      resolve_ambiguous order horder "M".toList (by rw [hc]; simp)
    rw [hc] at ha hb
    have hh := handleInput_of_error E order app buffer ("/m".toList ++ tail)
      (.ambiguous "M".toList a b) (by rw [hp]; exact hres)
    rw [hh]
    simp only [List.mem_cons, List.mem_singleton, List.not_mem_nil, or_false] at ha hb
    rcases ha with rfl | rfl <;> rcases hb with rfl | rfl
    · exact absurd rfl hab
    · left; rfl
    · right; rfl
    · exact absurd rfl hab

/-- C9, evaluated in source order on the line `/m anything`. -/
theorem ambiguity_report_witness :
    IsRangeOrder commandNames ∧ 2 ≤ (candidates "M".toList).length ∧
    (handleInput sampleEnv commandNames sampleApp "#chan".toList ("/m".toList ++ " anything".toList)
        = .ok (sampleApp, some (.ambiguous "M".toList "ME".toList "MSG".toList)) ∨
      handleInput sampleEnv commandNames sampleApp "#chan".toList ("/m".toList ++ " anything".toList)
        = .ok (sampleApp, some (.ambiguous "M".toList "MSG".toList "ME".toList))) :=
  ⟨List.Perm.refl _, by decide,
   (ambiguity_report commandNames (List.Perm.refl _) "M".toList (by decide)).2
     sampleEnv sampleApp "#chan".toList " anything".toList (Or.inr ⟨"anything".toList, rfl⟩)⟩

/-- C10: for every input line and buffer, if `handleInput` returns an
unknown-command, ambiguous-command, too-few-arguments or home-not-allowed error,
then the application state is unchanged and the error was returned by a stage
before the handler call: by the resolve stage, by the arity test or by the
`Home` test, so that no handler was invoked. -/
theorem stage_error_no_effect (E : Env) (order : List Str) (app app1 : App)
    (buffer line : Str) (e : Error)
    (h : handleInput E order app buffer line = .ok (app1, some e))
    (he : e.isStageError = true) :
    app1 = app ∧
    (resolve order (parseCommand E.upperTable line).1 = .error e ∨
      ∃ n d, resolve order (parseCommand E.upperTable line).1 = .ok n ∧
        lookupCommand n = some d ∧
        ((((splitArgs (parseCommand E.upperTable line).2 d.MaxArgs).length : Int) < d.MinArgs ∧
            e = .usage (parseCommand E.upperTable line).1 d.Usage) ∨
          (¬ ((splitArgs (parseCommand E.upperTable line).2 d.MaxArgs).length : Int) < d.MinArgs ∧
            buffer = E.Home ∧ d.AllowHome = false ∧
            e = .notFromHome (parseCommand E.upperTable line).1))) := by
  rcases hr : resolve order (parseCommand E.upperTable line).1 with e0 | n
  · rw [handleInput_of_error E order app buffer line e0 hr] at h
    simp only [Result.ok.injEq, Prod.mk.injEq, Option.some.injEq] at h
    obtain ⟨h1, h2⟩ := h
    subst h1; subst h2
    exact ⟨rfl, Or.inl rfl⟩
  · rcases hd : lookupCommand n with _ | d
    · simp [handleInput, hr, hd] at h
    · rw [handleInput_of_ok E order app buffer line n d hr hd] at h
      by_cases ha : ((splitArgs (parseCommand E.upperTable line).2 d.MaxArgs).length : Int)
          < d.MinArgs
      · rw [if_pos ha] at h
        simp only [Result.ok.injEq, Prod.mk.injEq, Option.some.injEq] at h
        obtain ⟨h1, h2⟩ := h
        exact ⟨h1.symm, Or.inr ⟨n, d, rfl, hd, Or.inl ⟨ha, h2.symm⟩⟩⟩
      · rw [if_neg ha] at h
        by_cases hb : buffer = E.Home ∧ d.AllowHome = false
        · rw [if_pos hb] at h
          simp only [Result.ok.injEq, Prod.mk.injEq, Option.some.injEq] at h
          obtain ⟨h1, h2⟩ := h
          exact ⟨h1.symm, Or.inr ⟨n, d, rfl, hd, Or.inr ⟨ha, hb.1, hb.2, h2.symm⟩⟩⟩
        · rw [if_neg hb] at h
          have := callHandle_error _ E app buffer _ app1 e h
          rw [this] at he
          exact absurd he (by simp)

/-- C10, evaluated on the line `/nosuch x` typed in `#chan`: the unknown-command
error comes from the resolve stage and leaves the application as it was. -/
theorem stage_error_no_effect_witness :
    handleInput sampleEnv commandNames sampleApp "#chan".toList "/nosuch x".toList
      = .ok (sampleApp, some (.doesntExist "NOSUCH".toList)) ∧
    (Error.doesntExist "NOSUCH".toList).isStageError = true ∧
    sampleApp = sampleApp ∧
    (resolve commandNames (parseCommand sampleEnv.upperTable "/nosuch x".toList).1
        = .error (.doesntExist "NOSUCH".toList) ∨
      ∃ n d, resolve commandNames (parseCommand sampleEnv.upperTable "/nosuch x".toList).1 = .ok n ∧
        lookupCommand n = some d ∧
        ((((splitArgs (parseCommand sampleEnv.upperTable "/nosuch x".toList).2 d.MaxArgs).length
              : Int) < d.MinArgs ∧
            Error.doesntExist "NOSUCH".toList
              = .usage (parseCommand sampleEnv.upperTable "/nosuch x".toList).1 d.Usage) ∨
          (¬ ((splitArgs (parseCommand sampleEnv.upperTable "/nosuch x".toList).2 d.MaxArgs).length
              : Int) < d.MinArgs ∧
            "#chan".toList = sampleEnv.Home ∧ d.AllowHome = false ∧
            Error.doesntExist "NOSUCH".toList
              = .notFromHome (parseCommand sampleEnv.upperTable "/nosuch x".toList).1))) :=
  ⟨by decide, rfl,
   stage_error_no_effect sampleEnv commandNames sampleApp sampleApp "#chan".toList
      "/nosuch x".toList (.doesntExist "NOSUCH".toList) (by decide) rfl⟩

/-! ## Further facts for the remaining claims -/

/-- A name found by the resolve stage is a key of the enumeration that passes
the tests of the loop. -/
theorem resolve_ok_mem (order : List Str) (frag n : Str) (h : resolve order frag = .ok n) :
    n ∈ order ∧ isCandidate frag n = true := by
  rw [resolve_eq] at h
  rcases hf : order.filter (isCandidate frag) with _ | ⟨a, _ | ⟨b, t⟩⟩
  · rw [hf] at h; simp at h
  · rw [hf] at h
    simp only [Except.ok.injEq] at h
    subst h
    have : a ∈ order.filter (isCandidate frag) := by rw [hf]; simp
    exact ⟨(List.mem_filter.mp this).1, (List.mem_filter.mp this).2⟩
  · rw [hf] at h; simp at h

theorem ToUpper_eq_nil (table : Char → Char) (w : Str) : ToUpper table w = [] ↔ w = [] := by
  simp [ToUpper]

/-- The lines whose command fragment is empty. -/
theorem parseCommand_fragment_nil (table : Char → Char) (line : Str) :
    (parseCommand table line).1 = [] ↔
      (line = [] ∨ line.head? ≠ some '/' ∨ line = ['/'] ∨ ∃ r, line = '/' :: ' ' :: r) := by
  constructor
  · intro h
    by_cases h1 : line = []
    · exact Or.inl h1
    · by_cases h2 : line.head? = some '/'
      · cases line with
        | nil => exact absurd rfl h1
        | cons x t =>
          simp at h2; subst h2
          rcases exists_first_split t ' ' with hs | ⟨w, r, rfl, hw⟩
          · rw [parseCommand_slash_no_space table t hs] at h
            have : t = [] := (ToUpper_eq_nil table t).mp h
            subst this
            exact Or.inr (Or.inr (Or.inl rfl))
          · rw [parseCommand_slash_space table w r hw] at h
            have : w = [] := (ToUpper_eq_nil table w).mp h
            subst this
            exact Or.inr (Or.inr (Or.inr ⟨r, rfl⟩))
      · exact Or.inr (Or.inl h2)
  · rintro (h | h | h | ⟨r, h⟩)
    · subst h; rfl
    · by_cases h1 : line = []
      · subst h1; rfl
      · rw [parseCommand_plain table line h1 h]
    · subst h; rfl
    · subst h
      have := parseCommand_slash_space table [] r (by simp)
      simp only [List.nil_append] at this
      rw [this]; rfl

/-- C11: the lines whose parsed command fragment is empty are the empty line,
the lines not beginning with `/`, the line `/` and the lines beginning with
`/ `; for every such line and every enumeration order, resolution selects the
default empty-name command, and `handleInput` returns neither an unknown-command
nor an ambiguous-command error, although the empty string is a prefix of each
of the twelve registered names. -/
theorem empty_fragment_resolves_default (order : List Str) (horder : IsRangeOrder order)
    (table : Char → Char) (line : Str) :
    ((parseCommand table line).1 = [] ↔
      (line = [] ∨ line.head? ≠ some '/' ∨ line = ['/'] ∨ ∃ r, line = '/' :: ' ' :: r)) ∧
    ((parseCommand table line).1 = [] →
      resolve order (parseCommand table line).1 = .ok [] ∧
      lookupCommand [] = some { MinArgs := 1, MaxArgs := 1, Handle := .commandDo } ∧
      ∀ (E : Env) (app app1 : App) (buffer : Str) (e : Error), E.upperTable = table →
        handleInput E order app buffer line = .ok (app1, some e) →
        (∀ c, e ≠ .doesntExist c) ∧ (∀ c a b, e ≠ .ambiguous c a b)) ∧
    (∀ n ∈ commandNames, ([] : Str) <+: n) ∧ commandNames.length = 12 := by
  refine ⟨parseCommand_fragment_nil table line, ?_, fun n _ => List.nil_prefix, by decide⟩
  intro hfrag
  have hr : resolve order (parseCommand table line).1 = .ok [] := by
    rw [hfrag]; exact resolve_of_candidates order horder [] [] candidates_nil
  refine ⟨hr, lookupCommand_default, ?_⟩
  intro E app app1 buffer e hE hh
  subst hE
  rw [handleInput_of_ok E order app buffer line [] _ hr lookupCommand_default] at hh
  have key : e.isStageError = false ∨ (∃ c u, e = .usage c u) ∨ ∃ c, e = .notFromHome c := by
    split_ifs at hh with h1 h2
    · simp only [Result.ok.injEq, Prod.mk.injEq, Option.some.injEq] at hh
      exact Or.inr (Or.inl ⟨_, _, hh.2.symm⟩)
    · simp only [Result.ok.injEq, Prod.mk.injEq, Option.some.injEq] at hh
      exact Or.inr (Or.inr ⟨_, hh.2.symm⟩)
    · exact Or.inl (callHandle_error _ E app buffer _ app1 e hh)
  rcases key with h | ⟨c, u, rfl⟩ | ⟨c, rfl⟩
  · constructor
    · intro c hc; rw [hc] at h; simp [Error.isStageError] at h
    · intro c a b hc; rw [hc] at h; simp [Error.isStageError] at h
  · exact ⟨fun c hc => (by cases hc), fun c a b hc => (by cases hc)⟩
  · exact ⟨fun c hc => (by cases hc), fun c a b hc => (by cases hc)⟩

/-- C11, evaluated on the line `/ hi` in source order. -/
theorem empty_fragment_resolves_default_witness :
    IsRangeOrder commandNames ∧
    (parseCommand (fun c => c) "/ hi".toList).1 = [] ∧
    resolve commandNames (parseCommand (fun c => c) "/ hi".toList).1 = .ok [] :=
  ⟨List.Perm.refl _, by decide,
   ((empty_fragment_resolves_default commandNames (List.Perm.refl _) (fun c => c)
      "/ hi".toList).2.1 (by decide)).1⟩

theorem parseCommand_part (table : Char → Char) :
    parseCommand table "/part".toList = ("PART".toList, []) := by
  rfl

theorem lookupCommand_part :
    lookupCommand "PART".toList = some ⟨true, 0, 2, "[channel] [reason]".toList,
      "part a channel".toList, .commandDoPart⟩ := by
  decide

/-- C12, as the claim states it, fails without a session (`app.s` is `nil`):
`/part` typed in `#chan` reaches `app.s.Part` and panics, so that no part
request is issued and nothing is returned. -/
theorem part_without_session_refuted :
    handleInput sampleEnv commandNames offlineApp "#chan".toList "/part".toList = .nilPanic ∧
    handleInput sampleEnv commandNames offlineApp "#chan".toList "/part".toList
      ≠ .ok ({ offlineApp with calls := offlineApp.calls ++ [.Part "#chan".toList []] }, none) := by
  refine ⟨by decide, by decide⟩

/-- C12, amended: for the line `/part` with no arguments, when the current
buffer is `Home`, `handleInput` returns the handler error "cannot part home!" and
issues no part request (the application is unchanged); when the current buffer
is any other buffer and the application has a session, it issues exactly one
call, a part request for that buffer with the empty reason, and returns no
error. -/
theorem part_without_arguments (E : Env) (order : List Str) (horder : IsRangeOrder order)
    (app : App) (buffer : Str) :
    (buffer = E.Home →
      handleInput E order app buffer "/part".toList = .ok (app, some .cannotPartHome)) ∧
    (buffer ≠ E.Home → app.sIsNil = false →
      handleInput E order app buffer "/part".toList
        = .ok ({ app with calls := app.calls ++ [.Part buffer []] }, none)) := by
  have hp := parseCommand_part E.upperTable
  have hr : resolve order (parseCommand E.upperTable "/part".toList).1 = .ok "PART".toList := by
    rw [hp]
    exact resolve_of_candidates order horder "PART".toList "PART".toList (by decide)
  have hi := handleInput_of_ok E order app buffer "/part".toList _ _ hr lookupCommand_part
  rw [hp] at hi
  constructor
  · intro hb
    rw [hi]
    simp [splitArgs, callHandle, commandDoPart, partChannel, hb]
  · intro hb hs
    rw [hi]
    simp [splitArgs, callHandle, commandDoPart, partChannel, hb, hs, App.call]

/-- C12 amended, evaluated in source order in the buffers `home` and `#chan`. -/
theorem part_without_arguments_witness :
    IsRangeOrder commandNames ∧
    handleInput sampleEnv commandNames sampleApp "home".toList "/part".toList
      = .ok (sampleApp, some .cannotPartHome) ∧
    handleInput sampleEnv commandNames sampleApp "#chan".toList "/part".toList
      = .ok ({ sampleApp with calls := sampleApp.calls ++ [.Part "#chan".toList []] }, none) :=
  ⟨List.Perm.refl _,
   (part_without_arguments sampleEnv commandNames (List.Perm.refl _) sampleApp
      "home".toList).1 rfl,
   (part_without_arguments sampleEnv commandNames (List.Perm.refl _) sampleApp
      "#chan".toList).2 (by decide) rfl⟩

theorem TrimLeftSpace_of_head (r : Str) (hr : r.head? ≠ some ' ') : TrimLeftSpace r = r := by
  cases r with
  | nil => rfl
  | cons x xs =>
    have hx : x ≠ ' ' := fun e => hr (by simp [e])
    simp [TrimLeftSpace, hx]

theorem splitArgs_one (r : Str) : splitArgs r 1 = if r = [] then [] else [r] := by
  by_cases h : r = []
  · simp [splitArgs, h]
  · have : ¬ ((1 : Int) > (r.length : Int) + 1) := by omega
    simp [splitArgs, h, SplitN, this, splitLoop]

theorem parseCommand_quit (table : Char → Char) (r : Str) (hr : r.head? ≠ some ' ') :
    parseCommand table ("/quit ".toList ++ r) = ("QUIT".toList, r) := by
  have h := parseCommand_slash_space table "quit".toList r (by decide)
  have h2 : TrimLeftSpace (' ' :: r) = r := by
    simp only [TrimLeftSpace, if_true]
    exact TrimLeftSpace_of_head r hr
  rw [h2] at h
  exact h

theorem lookupCommand_quit :
    lookupCommand "QUIT".toList = some ⟨true, 0, 1, "[reason]".toList,
      "quit senpai".toList, .commandDoQuit⟩ := by
  decide

/-- C13, as the claim states it, fails when the application has no session
(`app.s` is `nil`): `/quit bye` then exits the window without any quit request. -/
theorem quit_without_session_refuted :
    handleInput sampleEnv commandNames offlineApp "#chan".toList "/quit bye".toList
      = .ok ({ offlineApp with calls := [.Exit] }, none) ∧
    Call.Quit "bye".toList ∉ [Call.Exit] := by
  decide

/-- C13, amended: for every current buffer, including `Home`, and every reason
text `r` that does not begin with a space, the line `/quit` (`r` empty) or
`/quit ` followed by `r` is never rejected by the arity or home checks; the
`QUIT` handler passes `r` unchanged as the quit reason when the application has
a session (`app.s` is not `nil`), makes no quit request when it has none, and
in both cases then exits the window. -/
theorem quit_passes_reason (E : Env) (order : List Str) (horder : IsRangeOrder order)
    (app : App) (buffer r : Str) (hr : r.head? ≠ some ' ') :
    (r = [] →
      handleInput E order app buffer "/quit".toList
        = .ok ((if app.sIsNil = false then app.call (.Quit []) else app).call .Exit, none)) ∧
    handleInput E order app buffer ("/quit ".toList ++ r)
      = .ok ((if app.sIsNil = false then app.call (.Quit r) else app).call .Exit, none) := by
  have hc : candidates "QUIT".toList = ["QUIT".toList] := by decide
  constructor
  · intro _
    have hp : parseCommand E.upperTable "/quit".toList = ("QUIT".toList, []) := rfl
    have hres : resolve order (parseCommand E.upperTable "/quit".toList).1
        = .ok "QUIT".toList := by
      rw [hp]; exact resolve_of_candidates order horder "QUIT".toList "QUIT".toList hc
    rw [handleInput_of_ok E order app buffer _ _ _ hres lookupCommand_quit, hp]
    simp [splitArgs, callHandle, commandDoQuit]
  · have hp := parseCommand_quit E.upperTable r hr
    have hres : resolve order (parseCommand E.upperTable ("/quit ".toList ++ r)).1
        = .ok "QUIT".toList := by
      rw [hp]; exact resolve_of_candidates order horder "QUIT".toList "QUIT".toList hc
    rw [handleInput_of_ok E order app buffer _ _ _ hres lookupCommand_quit, hp]
    simp only [splitArgs_one]
    by_cases h : r = []
    · subst h; simp [callHandle, commandDoQuit]
    · simp [h, callHandle, commandDoQuit]

/-- C13 amended, evaluated on `/quit see you later` typed in `home`. -/
theorem quit_passes_reason_witness :
    IsRangeOrder commandNames ∧ "see you later".toList.head? ≠ some ' ' ∧
    handleInput sampleEnv commandNames sampleApp "home".toList
        ("/quit ".toList ++ "see you later".toList)
      = .ok ((if sampleApp.sIsNil = false then sampleApp.call (.Quit "see you later".toList)
          else sampleApp).call .Exit, none) :=
  ⟨List.Perm.refl _, by decide,
   (quit_passes_reason sampleEnv commandNames (List.Perm.refl _) sampleApp "home".toList
      "see you later".toList (by decide)).2⟩

/-- C14, the code at `/join #secret hunter2`: the only call is `Join` with the
channels; the keys reach no call, and the result is that of `/join #secret`. -/
theorem join_drops_keys :
    handleInput sampleEnv commandNames sampleApp "#chan".toList "/join #secret hunter2".toList
      = .ok ({ sampleApp with calls := [.Join "#secret".toList] }, none) ∧
    handleInput sampleEnv commandNames sampleApp "#chan".toList "/join #secret hunter2".toList
      = handleInput sampleEnv commandNames sampleApp "#chan".toList "/join #secret".toList := by
  have h1 : handleInput sampleEnv commandNames sampleApp "#chan".toList
      "/join #secret hunter2".toList
      = .ok ({ sampleApp with calls := [.Join "#secret".toList] }, none) := by decide
  have h2 : handleInput sampleEnv commandNames sampleApp "#chan".toList "/join #secret".toList
      = .ok ({ sampleApp with calls := [.Join "#secret".toList] }, none) := by decide
  exact ⟨h1, h1.trans h2.symm⟩

/-- C15, the code at `/part bye for now` typed in `#chan`, where `bye` is not a
channel name: the part request carries the reason `bye`, not `bye for now`;
with the channel named first, the sibling path keeps the whole reason. -/
theorem part_truncates_reason :
    sampleEnv.IsChannel "bye".toList = false ∧
    handleInput sampleEnv commandNames sampleApp "#chan".toList "/part bye for now".toList
      = .ok ({ sampleApp with calls := [.Part "#chan".toList "bye".toList] }, none) ∧
    handleInput sampleEnv commandNames sampleApp "#chan".toList "/part #chan bye for now".toList
      = .ok ({ sampleApp with calls := [.Part "#chan".toList "bye for now".toList] }, none) := by
  refine ⟨rfl, ?_, ?_⟩
  · decide
  · decide

/-- A handler panics with an index out of range exactly when `args` is shorter
than the positions it reads without a length test. -/
theorem callHandle_indexPanic_iff (h : Handler) (E : Env) (app : App) (buffer : Str)
    (args : List Str) :
    callHandle h E app buffer args = .indexPanic ↔ args.length < unguardedReads h := by
  cases h <;> rcases args with _ | ⟨a, _ | ⟨b, t⟩⟩ <;>
    simp only [callHandle, unguardedReads, commandDo, commandDoHelp, commandDoJoin,
      commandDoMe, commandDoMsg, commandDoNames, commandDoPart, commandDoQuit, commandDoQuote,
      commandDoR, commandDoTopic, commandDoBuffer, partChannel, List.getElem?_cons_zero,
      List.getElem?_cons_succ, List.getElem?_nil, List.length_cons, List.length_nil] <;>
    (try split_ifs) <;> first | omega | simp_all

/-- With a session no handler panics with a nil dereference. -/
theorem callHandle_ne_nilPanic (h : Handler) (E : Env) (app : App) (buffer : Str)
    (args : List Str) (hs : app.sIsNil = false) :
    callHandle h E app buffer args ≠ .nilPanic := by
  cases h <;> rcases args with _ | ⟨a, _ | ⟨b, t⟩⟩ <;>
    simp only [callHandle, commandDo, commandDoHelp, commandDoJoin,
      commandDoMe, commandDoMsg, commandDoNames, commandDoPart, commandDoQuit, commandDoQuote,
      commandDoR, commandDoTopic, commandDoBuffer, partChannel, List.getElem?_cons_zero,
      List.getElem?_cons_succ, List.getElem?_nil, List.length_cons, List.length_nil, hs] <;>
    (try split_ifs) <;> first | omega | simp_all

theorem lookupCommand_some_mem (n : Str) (d : command) (h : lookupCommand n = some d) :
    (n, d) ∈ commands := by
  unfold lookupCommand at h
  rcases hf : commands.find? (fun e => decide (e.1 = n)) with _ | e
  · rw [hf] at h; simp at h
  · rw [hf] at h
    simp only [Option.map_some', Option.some.injEq] at h
    have hm := List.mem_of_find?_eq_some hf
    have hp := List.find?_some hf
    simp only [decide_eq_true_eq] at hp
    have : e = (n, d) := by
      rcases e with ⟨e1, e2⟩
      simp only at hp h
      rw [hp, h]
    rw [← this]; exact hm

theorem unguardedReads_le_MinArgs :
    ∀ e ∈ commands, (unguardedReads e.2.Handle : Int) ≤ e.2.MinArgs := by
  decide

/-- C16: a handler panics with an index out of range exactly when `args` is
shorter than the positions it reads without a length test (`args[0]` in the
default, `JOIN`, `ME`, `QUOTE`, `REPLY` and `BUFFER` handlers, `args[0]` and
`args[1]` in `MSG`, none elsewhere); for every registered command that number
is at most `MinArgs`; so whenever `handleInput` reaches the handler call, the
reads are below `len(args)` and the handler does not fail with an index out of
range, and neither does `handleInput`, for every line, buffer, application
state and enumeration order; with a session `handleInput` does not panic at all. -/
theorem handler_reads_in_range (E : Env) (order : List Str) (horder : IsRangeOrder order)
    (app : App) (buffer line : Str) :
    (∀ (h : Handler) (E1 : Env) (app1 : App) (buffer1 : Str) (args : List Str),
      callHandle h E1 app1 buffer1 args = .indexPanic ↔ args.length < unguardedReads h) ∧
    (∀ e ∈ commands, (unguardedReads e.2.Handle : Int) ≤ e.2.MinArgs) ∧
    (∀ (n : Str) (d : command),
      resolve order (parseCommand E.upperTable line).1 = .ok n → lookupCommand n = some d →
      ¬ ((splitArgs (parseCommand E.upperTable line).2 d.MaxArgs).length : Int) < d.MinArgs →
      unguardedReads d.Handle ≤ (splitArgs (parseCommand E.upperTable line).2 d.MaxArgs).length ∧
      callHandle d.Handle E app buffer (splitArgs (parseCommand E.upperTable line).2 d.MaxArgs)
        ≠ .indexPanic) ∧
    handleInput E order app buffer line ≠ .indexPanic ∧
    (app.sIsNil = false →
      ∃ app1 err, handleInput E order app buffer line = .ok (app1, err)) := by
  have hreach : ∀ (n : Str) (d : command),
      resolve order (parseCommand E.upperTable line).1 = .ok n → lookupCommand n = some d →
      ¬ ((splitArgs (parseCommand E.upperTable line).2 d.MaxArgs).length : Int) < d.MinArgs →
      unguardedReads d.Handle ≤ (splitArgs (parseCommand E.upperTable line).2 d.MaxArgs).length ∧
      callHandle d.Handle E app buffer (splitArgs (parseCommand E.upperTable line).2 d.MaxArgs)
        ≠ .indexPanic := by
    intro n d _ hd hlen
    have hle := unguardedReads_le_MinArgs (n, d) (lookupCommand_some_mem n d hd)
    simp only at hle
    have h1 : unguardedReads d.Handle
        ≤ (splitArgs (parseCommand E.upperTable line).2 d.MaxArgs).length := by omega
    refine ⟨h1, ?_⟩
    intro hnone
    have := (callHandle_indexPanic_iff _ _ _ _ _).mp hnone
    omega
  have hidx : handleInput E order app buffer line ≠ .indexPanic := by
    rcases hr : resolve order (parseCommand E.upperTable line).1 with e0 | n
    · rw [handleInput_of_error E order app buffer line e0 hr]; simp
    · have hmem : n ∈ commandNames := horder.subset (resolve_ok_mem order _ n hr).1
      obtain ⟨d, hd, _⟩ := lookupCommand_of_mem n hmem
      rw [handleInput_of_ok E order app buffer line n d hr hd]
      split_ifs with h1 h2
      · simp
      · simp
      · exact (hreach n d hr hd h1).2
  refine ⟨callHandle_indexPanic_iff, unguardedReads_le_MinArgs, hreach, hidx, ?_⟩
  intro hs
  have hnil : handleInput E order app buffer line ≠ .nilPanic := by
    rcases hr : resolve order (parseCommand E.upperTable line).1 with e0 | n
    · rw [handleInput_of_error E order app buffer line e0 hr]; simp
    · have hmem : n ∈ commandNames := horder.subset (resolve_ok_mem order _ n hr).1
      obtain ⟨d, hd, _⟩ := lookupCommand_of_mem n hmem
      rw [handleInput_of_ok E order app buffer line n d hr hd]
      split_ifs with h1 h2
      · simp
      · simp
      · exact callHandle_ne_nilPanic _ E app buffer _ hs
  rcases hres : handleInput E order app buffer line with ⟨app1, err⟩ | _ | _
  · exact ⟨app1, err, rfl⟩
  · exact absurd hres hidx
  · exact absurd hres hnil

/-- C16, evaluated on `/msg bob` (one argument, `MSG` reads two) in source
order: the arity test returns before the handler, no panic. -/
theorem handler_reads_in_range_witness :
    IsRangeOrder commandNames ∧
    handleInput sampleEnv commandNames sampleApp "#chan".toList "/msg bob".toList
      ≠ .indexPanic :=
  ⟨List.Perm.refl _,
   (handler_reads_in_range sampleEnv commandNames (List.Perm.refl _) sampleApp "#chan".toList
      "/msg bob".toList).2.2.2.1⟩

/-- Upper-casing fixes an upper-case ASCII letter and maps its lower-case form
to it, whatever the Unicode case table; neither is a space. -/
theorem upper_letter_facts (table : Char → Char) :
    ∀ u ∈ upperLetters,
      unicodeToUpper table u = u ∧ unicodeToUpper table (asciiLower u) = u ∧
      u ≠ ' ' ∧ asciiLower u ≠ ' ' := by
  intro u hu
  simp only [upperLetters, String.toList, List.mem_cons, List.mem_singleton,
    List.not_mem_nil, or_false] at hu
  rcases hu with h | h | h | h | h | h | h | h | h | h | h | h | h | h | h | h | h | h | h |
    h | h | h | h | h | h | h <;> subst h <;>
    exact ⟨rfl, rfl, by decide, by decide⟩

theorem commandNames_upper : ∀ n ∈ commandNames, ∀ c ∈ n, c ∈ upperLetters := by
  decide

theorem isCaseVariant_upper (table : Char → Char) :
    ∀ (w n : Str), (∀ c ∈ n, c ∈ upperLetters) → isCaseVariant w n = true →
      ToUpper table w = n ∧ ' ' ∉ w := by
  intro w
  induction w with
  | nil =>
    intro n _ h
    cases n with
    | nil => simp [ToUpper]
    | cons u n => simp [isCaseVariant] at h
  | cons c w ih =>
    intro n hn h
    cases n with
    | nil => simp [isCaseVariant] at h
    | cons u n =>
      simp only [isCaseVariant, Bool.and_eq_true, Bool.or_eq_true, decide_eq_true_eq] at h
      obtain ⟨hc, hw⟩ := h
      have hu := upper_letter_facts table u (hn u (by simp))
      obtain ⟨ih1, ih2⟩ := ih n (fun x hx => hn x (by simp [hx])) hw
      have ih1' : List.map (unicodeToUpper table) w = n := ih1
      rcases hc with rfl | rfl
      · refine ⟨by simp [ToUpper, hu.1, ih1'], ?_⟩
        simp only [List.mem_cons, not_or]
        exact ⟨fun e => hu.2.2.1 e.symm, ih2⟩
      · refine ⟨by simp [ToUpper, hu.2.1, ih1'], ?_⟩
        simp only [List.mem_cons, not_or]
        exact ⟨fun e => hu.2.2.2 e.symm, ih2⟩

theorem name_prefix_of_no_other :
    ∀ n ∈ commandNames, n ≠ [] → ∀ m ∈ commandNames, m ≠ n → ¬ n <+: m := by
  decide

theorem candidates_of_name : ∀ n ∈ commandNames, n ≠ [] → candidates n = [n] := by
  decide

/-- Once resolution has succeeded, `handleInput` returns neither an
unknown-command nor an ambiguous-command error. -/
theorem handleInput_resolved (E : Env) (order : List Str) (app app1 : App)
    (buffer line n : Str) (d : command) (e : Error)
    (hr : resolve order (parseCommand E.upperTable line).1 = .ok n)
    (hd : lookupCommand n = some d)
    (hh : handleInput E order app buffer line = .ok (app1, some e)) :
    (∀ c, e ≠ .doesntExist c) ∧ (∀ c a b, e ≠ .ambiguous c a b) := by
  rw [handleInput_of_ok E order app buffer line n d hr hd] at hh
  have key : e.isStageError = false ∨ (∃ c u, e = .usage c u) ∨ ∃ c, e = .notFromHome c := by
    split_ifs at hh with h1 h2
    · simp only [Result.ok.injEq, Prod.mk.injEq, Option.some.injEq] at hh
      exact Or.inr (Or.inl ⟨_, _, hh.2.symm⟩)
    · simp only [Result.ok.injEq, Prod.mk.injEq, Option.some.injEq] at hh
      exact Or.inr (Or.inr ⟨_, hh.2.symm⟩)
    · exact Or.inl (callHandle_error _ E app buffer _ app1 e hh)
  rcases key with h | ⟨c, u, rfl⟩ | ⟨c, rfl⟩
  · constructor
    · intro c hc; rw [hc] at h; simp [Error.isStageError] at h
    · intro c a b hc; rw [hc] at h; simp [Error.isStageError] at h
  · exact ⟨fun c hc => (by cases hc), fun c a b hc => (by cases hc)⟩
  · exact ⟨fun c hc => (by cases hc), fun c a b hc => (by cases hc)⟩

/-- C17: no non-empty registered name is a prefix of a different registered
name, so for every non-empty registered name `n` the fragment `n` has exactly
one candidate, `n` itself; and a line made of `/`, the name `n` typed in any
letter case, and then nothing or a space and any text, has the fragment `n`,
resolves to `n` in every enumeration order, and makes `handleInput` return
neither an unknown-command nor an ambiguous-command error. -/
theorem full_name_resolves (order : List Str) (horder : IsRangeOrder order) (n : Str)
    (hn : n ∈ commandNames) (hne : n ≠ []) :
    (∀ m ∈ commandNames, m ≠ n → ¬ n <+: m) ∧
    candidates n = [n] ∧
    resolve order n = .ok n ∧
    (∀ (table : Char → Char) (w rest : Str), isCaseVariant w n = true →
      (rest = [] ∨ ∃ r, rest = ' ' :: r) →
      (parseCommand table ('/' :: (w ++ rest))).1 = n ∧
      resolve order (parseCommand table ('/' :: (w ++ rest))).1 = .ok n ∧
      ∀ (E : Env) (app app1 : App) (buffer : Str) (e : Error), E.upperTable = table →
        handleInput E order app buffer ('/' :: (w ++ rest)) = .ok (app1, some e) →
        (∀ c, e ≠ .doesntExist c) ∧ (∀ c a b, e ≠ .ambiguous c a b)) := by
  have hc := candidates_of_name n hn hne
  have hr := resolve_of_candidates order horder n n hc
  refine ⟨name_prefix_of_no_other n hn hne, hc, hr, ?_⟩
  intro table w rest hw hrest
  obtain ⟨hup, hsp⟩ := isCaseVariant_upper table w n (commandNames_upper n hn) hw
  have hp : (parseCommand table ('/' :: (w ++ rest))).1 = n := by
    rcases hrest with rfl | ⟨r, rfl⟩
    · rw [List.append_nil, parseCommand_slash_no_space table w hsp, hup]
    · rw [parseCommand_slash_space table w r hsp, hup]
  refine ⟨hp, by rw [hp]; exact hr, ?_⟩
  intro E app app1 buffer e hE hh
  subst hE
  obtain ⟨d, hd, _⟩ := lookupCommand_of_mem n hn
  exact handleInput_resolved E order app app1 buffer _ n d e (by rw [hp]; exact hr) hd hh

/-- C17, evaluated on the name `TOPIC` typed as `/ToPiC new topic` in source
order. -/
theorem full_name_resolves_witness :
    IsRangeOrder commandNames ∧ "TOPIC".toList ∈ commandNames ∧ "TOPIC".toList ≠ [] ∧
    isCaseVariant "ToPiC".toList "TOPIC".toList = true ∧
    resolve commandNames (parseCommand (fun c => c) ('/' :: ("ToPiC".toList ++ " new topic".toList))).1
      = .ok "TOPIC".toList :=
  ⟨List.Perm.refl _, by decide, by decide, by decide,
   ((full_name_resolves commandNames (List.Perm.refl _) "TOPIC".toList (by decide)
      (by decide)).2.2.2 (fun c => c) "ToPiC".toList " new topic".toList (by decide)
      (Or.inr ⟨"new topic".toList, rfl⟩)).2.1⟩

theorem TrimLeftSpace_head (s : Str) : (TrimLeftSpace s).head? ≠ some ' ' := by
  induction s with
  | nil => simp [TrimLeftSpace]
  | cons x xs ih =>
    by_cases hx : x = ' '
    · simp only [TrimLeftSpace, hx, if_true]; exact ih
    · simp [TrimLeftSpace, hx]

/-- After a non-empty command fragment the argument tail has no leading space. -/
theorem parseCommand_tail_head (table : Char → Char) (line : Str)
    (h : (parseCommand table line).1 ≠ []) :
    (parseCommand table line).2.head? ≠ some ' ' := by
  by_cases h1 : line = []
  · subst h1; simp [parseCommand]
  · by_cases h2 : line.head? = some '/'
    · cases line with
      | nil => exact absurd rfl h1
      | cons x t =>
        simp at h2; subst h2
        rcases exists_first_split t ' ' with hs | ⟨w, r, rfl, hw⟩
        · rw [parseCommand_slash_no_space table t hs]; simp
        · rw [parseCommand_slash_space table w r hw]
          exact TrimLeftSpace_head _
    · rw [parseCommand_plain table line h1 h2] at h
      exact absurd rfl h

theorem MaxArgs_cases :
    ∀ e ∈ commands, e.2.MaxArgs = 0 ∨ e.2.MaxArgs = 1 ∨ (e.2.MaxArgs = 2 ∧ e.1 ≠ []) := by
  decide

theorem MaxArgs_le_two : ∀ e ∈ commands, e.2.MaxArgs ≤ 2 := by
  decide

/-- Splitting into at most two fields a non-empty string without a leading
space: the whole string, or a non-empty space-free word and the rest. -/
theorem splitArgs_two (s : Str) (h1 : s ≠ []) (h2 : s.head? ≠ some ' ') :
    splitArgs s 2 = [s] ∨ ∃ w r, splitArgs s 2 = [w, r] ∧ w ≠ [] ∧ ' ' ∉ w := by
  have hlen : 1 ≤ s.length := List.length_pos.mpr h1
  have hn : ¬ ((2 : Int) > (s.length : Int) + 1) := by omega
  have hs : splitArgs s 2 = splitLoop 1 s := by
    simp [splitArgs, h1, SplitN, hn]
  rw [hs]
  rcases exists_first_split s ' ' with h | ⟨w, r, rfl, hw⟩
  · left; exact splitLoop_of_no_space 1 s h
  · right
    refine ⟨w, r, ?_, ?_, hw⟩
    · rw [splitLoop_succ_of_space 0 w r hw]; rfl
    · intro hwn
      subst hwn
      simp at h2

/-- C18: for every input line, whenever the argument list built for the
resolved registered command is non-empty, its first field is non-empty, and
every field before the last is non-empty and contains no space; every
registered command has `MaxArgs <= 2`. -/
theorem args_fields_nonempty (E : Env) (order : List Str) (line n : Str) (d : command)
    (hres : resolve order (parseCommand E.upperTable line).1 = .ok n)
    (hd : lookupCommand n = some d)
    (hne : splitArgs (parseCommand E.upperTable line).2 d.MaxArgs ≠ []) :
    (∃ f rest, splitArgs (parseCommand E.upperTable line).2 d.MaxArgs = f :: rest ∧ f ≠ []) ∧
    (∀ f ∈ (splitArgs (parseCommand E.upperTable line).2 d.MaxArgs).dropLast,
      f ≠ [] ∧ ' ' ∉ f) ∧
    (∀ e ∈ commands, e.2.MaxArgs ≤ 2) := by
  refine ⟨?_, ?_, MaxArgs_le_two⟩ <;>
  · have hmem := lookupCommand_some_mem n d hd
    have hcand := (resolve_ok_mem order _ n hres).2
    have htail : (parseCommand E.upperTable line).2 ≠ [] := by
      intro h; apply hne; simp [splitArgs, h]
    rcases MaxArgs_cases (n, d) hmem with h0 | h1 | ⟨h2, hn⟩
    · simp only at h0
      exact absurd (by simp [splitArgs, h0]) hne
    · simp only at h1
      rw [h1, splitArgs_one, if_neg htail]
      simp [htail]
    · simp only at h2 hn
      have hfrag : (parseCommand E.upperTable line).1 ≠ [] := by
        intro h
        rw [h] at hcand
        simp [isCandidate] at hcand
        exact hn hcand
      rw [h2]
      rcases splitArgs_two _ htail (parseCommand_tail_head E.upperTable line hfrag) with
        h | ⟨w, r, h, hw1, hw2⟩
      · rw [h]; simp [htail]
      · rw [h]; simp [hw1, hw2]

/-- C18, evaluated on `/msg   bob  hi there` in source order: the fields are
`bob` and ` hi there`. -/
theorem args_fields_nonempty_witness :
    splitArgs (parseCommand sampleEnv.upperTable "/msg   bob  hi there".toList).2 2
      = ["bob".toList, " hi there".toList] ∧
    ∀ f ∈ (splitArgs (parseCommand sampleEnv.upperTable "/msg   bob  hi there".toList).2
        2).dropLast, f ≠ [] ∧ ' ' ∉ f :=
  ⟨by decide,
   (args_fields_nonempty sampleEnv commandNames "/msg   bob  hi there".toList "MSG".toList
      (⟨true, 2, 2, "<target> <message>".toList, "send a message to the given target".toList,
        .commandDoMsg⟩)
      rfl (by decide) (by decide)).2.1⟩

theorem lookupCommand_msg :
    lookupCommand "MSG".toList = some ⟨true, 2, 2, "<target> <message>".toList,
      "send a message to the given target".toList, .commandDoMsg⟩ := by
  decide

/-- C19: the line `/msg bob ` (one trailing space) has the argument tail `bob `,
which splits into `["bob", ""]`; the list passes the arity check of `MSG`
(`MinArgs = 2`), and in every buffer, application state and enumeration order
the `MSG` handler is invoked with that list; with a session it sends the empty
message to `bob`. -/
theorem msg_trailing_space_sends_empty (E : Env) (order : List Str)
    (horder : IsRangeOrder order) (app : App) (buffer : Str) :
    parseCommand E.upperTable "/msg bob ".toList = ("MSG".toList, "bob ".toList) ∧
    splitArgs (parseCommand E.upperTable "/msg bob ".toList).2 2 = ["bob".toList, []] ∧
    (∃ d, lookupCommand "MSG".toList = some d ∧ d.MinArgs = 2 ∧ d.MaxArgs = 2 ∧
      ¬ ((splitArgs (parseCommand E.upperTable "/msg bob ".toList).2 d.MaxArgs).length : Int)
        < d.MinArgs) ∧
    handleInput E order app buffer "/msg bob ".toList
      = commandDoMsg E app buffer ["bob".toList, []] ∧
    (app.sIsNil = false →
      handleInput E order app buffer "/msg bob ".toList
        = .ok (echoMessage E (app.call (.PrivMsg "bob".toList [])) "bob".toList [], none)) := by
  have hp : parseCommand E.upperTable "/msg bob ".toList = ("MSG".toList, "bob ".toList) := rfl
  have hs : splitArgs (parseCommand E.upperTable "/msg bob ".toList).2 2
      = ["bob".toList, []] := by
    rw [hp]; decide
  have hr : resolve order (parseCommand E.upperTable "/msg bob ".toList).1
      = .ok "MSG".toList := by
    rw [hp]
    exact resolve_of_candidates order horder "MSG".toList "MSG".toList (by decide)
  have hi : handleInput E order app buffer "/msg bob ".toList
      = commandDoMsg E app buffer ["bob".toList, []] := by
    rw [handleInput_of_ok E order app buffer _ _ _ hr lookupCommand_msg]
    simp only [hs]
    simp [callHandle]
  refine ⟨hp, hs, ⟨_, lookupCommand_msg, rfl, rfl, ?_⟩, hi, ?_⟩
  · simp only [hs]; decide
  · intro hsess
    rw [hi]
    simp [commandDoMsg, hsess]

/-- C19, evaluated in source order in the buffer `#chan`. -/
theorem msg_trailing_space_sends_empty_witness :
    IsRangeOrder commandNames ∧
    handleInput sampleEnv commandNames sampleApp "#chan".toList "/msg bob ".toList
      = commandDoMsg sampleEnv sampleApp "#chan".toList ["bob".toList, []] :=
  ⟨List.Perm.refl _,
   (msg_trailing_space_sends_empty sampleEnv commandNames (List.Perm.refl _) sampleApp
      "#chan".toList).2.2.2.1⟩

end Senpai
